import Mathlib

/-!
# Verification of the tinycrdt sequence CRDT core (`src/doc.rs`)

Shallow embedding of the repository's `Doc` type and its operations.

Modelling conventions:
* Rust `String` content is modelled as `List Char`; the code counts positions in
  Unicode scalar values via `.chars()`, which corresponds exactly to `List Char`
  positions.
* `HashMap<ID, Item>` is modelled as an association list with first-match lookup
  and replace-on-insert (`Store`); the code never iterates the map, so iteration
  order is irrelevant.
* `u64` counters are modelled as `Nat`; no code path relies on wrap-around.
* The Rust traversals (`find_pos`, the `value` iterator, the `delete` loop)
  are `while` loops over the linked structure; they are modelled with a fuel
  parameter of `items.length + 1`, which is shown sufficient on well-formed
  documents.  Branches corresponding to a Rust `unwrap`/index panic (a missing
  key) return early; those branches are unreachable on well-formed documents.
* `apply`, `diff`, `try_link`, `link` and `resolve_pending` are empty stubs in
  the source (`doc.rs` lines 148-151 and 189-192); they are embedded exactly as
  the stubs they are: `apply` returns the document unchanged and `diff` returns
  the empty list.
-/

namespace TinyCrdt

/-- `ID { client: u64, clock: u64 }` from `id.rs` / `doc.rs`. -/
structure ID where
  client : Nat
  clock : Nat
deriving DecidableEq

/-- `Item` from `item.rs`. -/
structure Item where
  id : ID
  left : Option ID
  right : Option ID
  content : List Char
  is_deleted : Bool
deriving DecidableEq

/-- Association-list model of `HashMap<ID, Item>`. -/
abbrev Store := List (ID × Item)

/-- Association-list model of `StateVector = HashMap<u64, u64>`. -/
abbrev StateVector := List (Nat × Nat)

/-- `HashMap::get`. -/
def Store.get? (s : Store) (i : ID) : Option Item :=
  (s.find? (fun p => p.1 == i)).map (fun p => p.2)

/-- `HashMap::insert` (replacing any previous binding of the key). -/
def Store.insert (s : Store) (i : ID) (it : Item) : Store :=
  (i, it) :: s.filter (fun p => p.1 != i)

/-- `self.items.get_mut(&i).unwrap().right = r`; missing key models the
unreachable panic branch as a no-op. -/
def Store.setRight (s : Store) (i : ID) (r : Option ID) : Store :=
  match s.get? i with
  | some it => s.insert i { it with right := r }
  | none => s

/-- `self.items.get_mut(&i).unwrap().left = l`. -/
def Store.setLeft (s : Store) (i : ID) (l : Option ID) : Store :=
  match s.get? i with
  | some it => s.insert i { it with left := l }
  | none => s

/-- `self.items.get_mut(&i).unwrap().is_deleted = true`. -/
def Store.setDeleted (s : Store) (i : ID) : Store :=
  match s.get? i with
  | some it => s.insert i { it with is_deleted := true }
  | none => s

/-- `StateVector::insert`. -/
def svInsert (sv : StateVector) (c v : Nat) : StateVector :=
  (c, v) :: sv.filter (fun p => p.1 != c)

/-- The `Doc` struct.  The resolver field is the zero-sized `YataResolver`;
it is only consulted by the unimplemented `apply`, so it carries no state and
is omitted from the embedding. -/
structure Doc where
  client_id : Nat
  clock : Nat
  items : Store
  pending : List Item
  state_vector : StateVector
  head : Option ID
deriving DecidableEq

/-- `Doc::new`. -/
def Doc.new (client_id : Nat) : Doc :=
  ⟨client_id, 0, [], [], [], none⟩

/-- `Doc::next_id`: returns an ID with the current clock, advances the clock by
the character count of `text` and records `clock - 1` in the state vector. -/
def Doc.next_id (d : Doc) (text : List Char) : ID × Doc :=
  (⟨d.client_id, d.clock⟩,
   { d with
      clock := d.clock + text.length,
      state_vector := svInsert d.state_vector d.client_id (d.clock + text.length - 1) })

/-- Loop body of `Doc::find_pos`, with fuel standing in for the Rust `while`. -/
def findPosAux (items : Store) : Nat → Option ID → Option ID → Nat → Nat →
    Option ID × Option ID × Nat
  | 0, _, left, _, _ => (left, none, 0)
  | _ + 1, none, left, _, _ => (left, none, 0)
  | fuel + 1, some i, left, index, pos =>
    match items.get? i with
    | none => (left, none, 0)
    | some item =>
      if item.is_deleted then
        findPosAux items fuel item.right left index pos
      else if pos < index + item.content.length then
        (left, some i, pos - index)
      else
        findPosAux items fuel item.right (some i) (index + item.content.length) pos

/-- `Doc::find_pos`. -/
def Doc.find_pos (d : Doc) (pos : Nat) : Option ID × Option ID × Nat :=
  findPosAux d.items (d.items.length + 1) d.head none 0 pos

/-- `Doc::split_item`: splits an item at `offset`; the new left part gets a
fresh ID, the original item keeps its ID, its content truncated to the right
part and its `left` repointed to the new item. -/
def Doc.split_item (d : Doc) (item_id : ID) (offset : Nat) : ID × Doc :=
  match d.items.get? item_id with
  | none => (item_id, d)
  | some item =>
    let nd := d.next_id (item.content.take offset)
    let left_split : Item :=
      ⟨nd.1, item.left, some item_id, item.content.take offset, false⟩
    let d2 : Doc :=
      { nd.2 with
          items :=
            (nd.2.items.insert item_id
              { item with content := item.content.drop offset, left := some nd.1 }).insert
              nd.1 left_split }
    match item.left with
    | some prev_id => (nd.1, { d2 with items := d2.items.setRight prev_id (some nd.1) })
    | none => (nd.1, { d2 with head := some nd.1 })

/-- `SequenceCrdt::insert` for `Doc`. -/
def Doc.insert (d : Doc) (pos : Nat) (text : List Char) : Doc :=
  if text.isEmpty then d
  else
    let fp := d.find_pos pos
    let ld : Option ID × Doc :=
      match fp.2.1 with
      | some rid =>
        if 0 < fp.2.2 then
          let s := d.split_item rid fp.2.2
          (some s.1, s.2)
        else (fp.1, d)
      | none => (fp.1, d)
    let nd := ld.2.next_id text
    let new_item : Item := ⟨nd.1, ld.1, fp.2.1, text, false⟩
    let d3 : Doc := { nd.2 with items := nd.2.items.insert nd.1 new_item }
    let d4 : Doc :=
      match ld.1 with
      | some lid => { d3 with items := d3.items.setRight lid (some nd.1) }
      | none => { d3 with head := some nd.1 }
    match fp.2.1 with
    | some rid => { d4 with items := d4.items.setLeft rid (some nd.1) }
    | none => d4

/-- The `while remaining > 0` loop of `SequenceCrdt::delete`, with fuel. -/
def deleteLoop : Nat → Doc → ID → Nat → Doc
  | 0, d, _, _ => d
  | fuel + 1, d, current_id, remaining =>
    if remaining = 0 then d
    else
      match d.items.get? current_id with
      | none => d
      | some item =>
        if item.is_deleted then
          match item.right with
          | none => d
          | some next => deleteLoop fuel d next remaining
        else
          if remaining < item.content.length then
            let s := d.split_item current_id remaining
            { s.2 with items := s.2.items.setDeleted s.1 }
          else
            let d1 : Doc := { d with items := d.items.setDeleted current_id }
            match item.right with
            | none => d1
            | some next_id => deleteLoop fuel d1 next_id (remaining - item.content.length)

/-- `SequenceCrdt::delete` for `Doc`. -/
def Doc.delete (d : Doc) (pos len : Nat) : Doc :=
  if len = 0 then d
  else
    let fp := d.find_pos pos
    match fp.2.1 with
    | none => d
    | some current_id =>
      let d1 := if 0 < fp.2.2 then (d.split_item current_id fp.2.2).2 else d
      deleteLoop (d1.items.length + 1) d1 current_id len

/-- The `DocIterator`-based `value()`: left-to-right traversal from `head`
skipping tombstones, concatenating contents (with fuel). -/
def valueAux (items : Store) : Nat → Option ID → List Char
  | 0, _ => []
  | _ + 1, none => []
  | fuel + 1, some i =>
    match items.get? i with
    | none => []
    | some item =>
      if item.is_deleted then valueAux items fuel item.right
      else item.content ++ valueAux items fuel item.right

/-- `SequenceCrdt::value` for `Doc`. -/
def Doc.value (d : Doc) : List Char :=
  valueAux d.items (d.items.length + 1) d.head

/-- `Crdt::apply` for `Doc` — an empty stub in the source (`fn apply(&mut self,
update: Self::Update) {}`, doc.rs line 189): it ignores the update entirely. -/
def Doc.apply (d : Doc) (_update : List Item) : Doc := d

/-- `Crdt::diff` for `Doc` — a stub in the source returning `Vec::new()`
(doc.rs lines 190-192). -/
def Doc.diff (_d : Doc) (_remote : StateVector) : List Item := []

/-- Full left-to-right traversal from `head` (tombstones included), used to
talk about the linked-list chain of a document. -/
def chainItemsAux (items : Store) : Nat → Option ID → List Item
  | 0, _ => []
  | _ + 1, none => []
  | fuel + 1, some i =>
    match items.get? i with
    | none => []
    | some item => item :: chainItemsAux items fuel item.right

/-- The items on the chain reachable from `head`, in list order. -/
def Doc.chainItems (d : Doc) : List Item :=
  chainItemsAux d.items (d.items.length + 1) d.head

/-- Concatenation of the contents of all chain items, tombstoned or not. -/
def Doc.allText (d : Doc) : List Char :=
  (d.chainItems.map Item.content).flatten

/-- The id of the last non-tombstoned item of the chain, if any. -/
def Doc.lastVisible (d : Doc) : Option ID :=
  ((d.chainItems.filter (fun it => !it.is_deleted)).getLast?).map Item.id

/-! ## Specification-level functions (pure list models of the traversals) -/

/-- Visible text of a list of items. -/
def vis : List Item → List Char
  | [] => []
  | it :: L => if it.is_deleted then vis L else it.content ++ vis L

/-- Concatenated content of a list of items, tombstones included. -/
def allTxt : List Item → List Char
  | [] => []
  | it :: L => it.content ++ allTxt L

/-- List-level model of the `find_pos` loop. -/
def fpList : List Item → Option ID → Nat → Nat → Option ID × Option ID × Nat
  | [], left, _, _ => (left, none, 0)
  | it :: L, left, index, pos =>
    if it.is_deleted then fpList L left index pos
    else if pos < index + it.content.length then (left, some it.id, pos - index)
    else fpList L (some it.id) (index + it.content.length) pos

/-- The id of the last visible item of `L`, defaulting to `left`. -/
def lastVisFrom (left : Option ID) : List Item → Option ID
  | [] => left
  | it :: L => if it.is_deleted then lastVisFrom left L else lastVisFrom (some it.id) L

/-- The id of the last item of `L`, defaulting to `p`. -/
def endOf (p : Option ID) : List Item → Option ID
  | [] => p
  | it :: L => endOf (some it.id) L

/-- `ChainSeg items c L e`: starting from pointer `c`, following `right`
pointers through the store yields exactly the items `L` and then the
pointer `e`.  Every chain element is stored under its own id. -/
def ChainSeg (items : Store) : Option ID → List Item → Option ID → Prop
  | c, [], e => c = e
  | c, it :: L, e => c = some it.id ∧ items.get? it.id = some it ∧ ChainSeg items it.right L e

/-- `LeftSeg prev L`: the `left` pointers along `L` link back correctly,
starting from predecessor `prev`. -/
def LeftSeg : Option ID → List Item → Prop
  | _, [] => True
  | prev, it :: L => it.left = prev ∧ LeftSeg (some it.id) L

/-- Every non-tombstoned store entry lies on the chain `L`. -/
def visCov (s : Store) (L : List Item) : Prop :=
  ∀ i it, s.get? i = some it → it.is_deleted = false → i ∈ L.map Item.id

/-- Every store key minted by this replica is in the past of its clock. -/
def clockOk (d : Doc) : Prop :=
  ∀ p ∈ d.items, p.1.client = d.client_id → p.1.clock < d.clock

/-- Well-formedness of a document: the items reachable from `head` form a
single chain, with correct back links, containing every visible item, and all
locally-minted keys are below the local clock. -/
def Doc.WF (d : Doc) : Prop :=
  ∃ L : List Item,
    ChainSeg d.items d.head L none ∧ LeftSeg none L ∧
    visCov d.items L ∧ clockOk d

/-- One local edit operation. -/
inductive Op where
  | ins (pos : Nat) (text : List Char)
  | del (pos : Nat) (len : Nat)

/-- Run one local edit. -/
def applyOp (d : Doc) : Op → Doc
  | .ins pos text => d.insert pos text
  | .del pos len => d.delete pos len

/-- Run a sequence of local edits. -/
def applyOps (d : Doc) (ops : List Op) : Doc :=
  ops.foldl applyOp d

/-- `A` and `B` agree on everything except possibly the `right` fields. -/
def SameShape (A B : List Item) : Prop :=
  List.Forall₂
    (fun a b => a.id = b.id ∧ a.left = b.left ∧ a.content = b.content ∧
      a.is_deleted = b.is_deleted) A B

/-! ## Store lemmas -/

theorem find?_filter_key (s : Store) (i j : ID) (h : j ≠ i) :
    (s.filter (fun p => p.1 != i)).find? (fun p => p.1 == j) =
      s.find? (fun p => p.1 == j) := by
  induction s with
  | nil => rfl
  | cons a s ih =>
    by_cases hk : a.1 = i
    · have hj : (a.1 == j) = false := by
        simp only [beq_eq_false_iff_ne, hk]
        exact fun hh => h hh.symm
      have hij : (i == j) = false := by
        simp only [beq_eq_false_iff_ne]
        exact fun hh => h hh.symm
      simp [List.filter_cons, hk, List.find?_cons, hj, hij, ih]
    · by_cases hj : a.1 = j
      · simp [List.filter_cons, hk, List.find?_cons, hj, h]
      · simp [List.filter_cons, hk, List.find?_cons, hj, h, ih]

theorem Store.get?_insert_self (s : Store) (i : ID) (it : Item) :
    (s.insert i it).get? i = some it := by
  simp [Store.insert, Store.get?, List.find?_cons]

theorem Store.get?_insert_ne (s : Store) {i j : ID} (it : Item) (h : j ≠ i) :
    (s.insert i it).get? j = s.get? j := by
  have hb : ((i, it).1 == j) = false := by
    simp only [beq_eq_false_iff_ne]; exact fun hh => h hh.symm
  simp only [Store.insert, Store.get?, List.find?_cons, hb]
  rw [find?_filter_key s i j h]

theorem Store.get?_mem {s : Store} {i : ID} {it : Item} (h : s.get? i = some it) :
    (i, it) ∈ s := by
  induction s with
  | nil => simp [Store.get?] at h
  | cons a s ih =>
    by_cases hk : a.1 = i
    · have hb : (a.1 == i) = true := by simp [hk]
      simp only [Store.get?, List.find?_cons, hb] at h
      obtain ⟨a1, a2⟩ := a
      simp only at hk
      simp only [Option.map_some'] at h
      simp only [Option.some.injEq] at h
      subst hk
      subst h
      exact List.mem_cons_self _ _
    · have hb : (a.1 == i) = false := by simp [hk]
      simp only [Store.get?, List.find?_cons, hb] at h
      exact List.mem_cons_of_mem _ (ih h)

theorem Store.mem_insert_iff {s : Store} {i : ID} {it : Item} {p : ID × Item} :
    p ∈ s.insert i it ↔ p = (i, it) ∨ (p ∈ s ∧ p.1 ≠ i) := by
  simp [Store.insert, List.mem_filter]

theorem Store.length_insert_le (s : Store) (i : ID) (it : Item) :
    (s.insert i it).length ≤ s.length + 1 := by
  simp only [Store.insert, List.length_cons]
  exact Nat.succ_le_succ (List.length_filter_le _ _)

theorem Store.get?_setRight_self {s : Store} {i : ID} {it : Item}
    (h : s.get? i = some it) (r : Option ID) :
    (s.setRight i r).get? i = some { it with right := r } := by
  simp [Store.setRight, h, Store.get?_insert_self]

theorem Store.get?_setRight_ne (s : Store) {i j : ID} (r : Option ID) (h : j ≠ i) :
    (s.setRight i r).get? j = s.get? j := by
  unfold Store.setRight
  cases hg : s.get? i <;> simp [Store.get?_insert_ne _ _ h]

theorem Store.not_mem_of_get?_none {s : Store} {i : ID} (h : s.get? i = none) :
    ∀ p ∈ s, p.1 ≠ i := by
  intro p hp he
  simp only [Store.get?, Option.map_eq_none'] at h
  have := List.find?_eq_none.mp h p hp
  simp [he] at this

theorem Store.mem_setRight {s : Store} {i : ID} {r : Option ID} {p : ID × Item}
    (h : p ∈ s.setRight i r) :
    (p ∈ s ∧ p.1 ≠ i) ∨ ∃ it, s.get? i = some it ∧ p = (i, { it with right := r }) := by
  unfold Store.setRight at h
  cases hg : s.get? i with
  | none =>
    rw [hg] at h
    exact Or.inl ⟨h, Store.not_mem_of_get?_none hg p h⟩
  | some it =>
    rw [hg] at h
    rcases Store.mem_insert_iff.mp h with h1 | h2
    · exact Or.inr ⟨it, rfl, h1⟩
    · exact Or.inl h2

theorem Store.mem_setLeft {s : Store} {i : ID} {l : Option ID} {p : ID × Item}
    (h : p ∈ s.setLeft i l) :
    (p ∈ s ∧ p.1 ≠ i) ∨ ∃ it, s.get? i = some it ∧ p = (i, { it with left := l }) := by
  unfold Store.setLeft at h
  cases hg : s.get? i with
  | none =>
    rw [hg] at h
    exact Or.inl ⟨h, Store.not_mem_of_get?_none hg p h⟩
  | some it =>
    rw [hg] at h
    rcases Store.mem_insert_iff.mp h with h1 | h2
    · exact Or.inr ⟨it, rfl, h1⟩
    · exact Or.inl h2

theorem Store.mem_setDeleted {s : Store} {i : ID} {p : ID × Item}
    (h : p ∈ s.setDeleted i) :
    (p ∈ s ∧ p.1 ≠ i) ∨ ∃ it, s.get? i = some it ∧ p = (i, { it with is_deleted := true }) := by
  unfold Store.setDeleted at h
  cases hg : s.get? i with
  | none =>
    rw [hg] at h
    exact Or.inl ⟨h, Store.not_mem_of_get?_none hg p h⟩
  | some it =>
    rw [hg] at h
    rcases Store.mem_insert_iff.mp h with h1 | h2
    · exact Or.inr ⟨it, rfl, h1⟩
    · exact Or.inl h2

theorem Store.get?_setLeft_self {s : Store} {i : ID} {it : Item}
    (h : s.get? i = some it) (l : Option ID) :
    (s.setLeft i l).get? i = some { it with left := l } := by
  simp [Store.setLeft, h, Store.get?_insert_self]

theorem Store.get?_setLeft_ne (s : Store) {i j : ID} (l : Option ID) (h : j ≠ i) :
    (s.setLeft i l).get? j = s.get? j := by
  unfold Store.setLeft
  cases hg : s.get? i <;> simp [Store.get?_insert_ne _ _ h]

theorem Store.get?_setDeleted_self {s : Store} {i : ID} {it : Item}
    (h : s.get? i = some it) :
    (s.setDeleted i).get? i = some { it with is_deleted := true } := by
  simp [Store.setDeleted, h, Store.get?_insert_self]

theorem Store.get?_setDeleted_ne (s : Store) {i j : ID} (h : j ≠ i) :
    (s.setDeleted i).get? j = s.get? j := by
  unfold Store.setDeleted
  cases hg : s.get? i <;> simp [Store.get?_insert_ne _ _ h]

/-! ## Chain segment theory -/

@[simp] theorem ChainSeg_nil {items : Store} {c e : Option ID} :
    ChainSeg items c [] e ↔ c = e := Iff.rfl

@[simp] theorem ChainSeg_cons {items : Store} {c e : Option ID} {it : Item} {L : List Item} :
    ChainSeg items c (it :: L) e ↔
      c = some it.id ∧ items.get? it.id = some it ∧ ChainSeg items it.right L e := Iff.rfl

@[simp] theorem LeftSeg_nil {p : Option ID} : LeftSeg p [] ↔ True := Iff.rfl

@[simp] theorem LeftSeg_cons {p : Option ID} {it : Item} {L : List Item} :
    LeftSeg p (it :: L) ↔ it.left = p ∧ LeftSeg (some it.id) L := Iff.rfl

@[simp] theorem endOf_nil {p : Option ID} : endOf p [] = p := rfl

@[simp] theorem endOf_cons {p : Option ID} {it : Item} {L : List Item} :
    endOf p (it :: L) = endOf (some it.id) L := rfl

theorem endOf_append {p : Option ID} {A B : List Item} :
    endOf p (A ++ B) = endOf (endOf p A) B := by
  induction A generalizing p with
  | nil => rfl
  | cons it A ih => simp [ih]

@[simp] theorem endOf_concat {p : Option ID} {A : List Item} {b : Item} :
    endOf p (A ++ [b]) = some b.id := by
  rw [endOf_append]; rfl

theorem ChainSeg_append {items : Store} {c e : Option ID} {L₁ L₂ : List Item} :
    ChainSeg items c (L₁ ++ L₂) e ↔
      ∃ m, ChainSeg items c L₁ m ∧ ChainSeg items m L₂ e := by
  induction L₁ generalizing c with
  | nil => simp
  | cons it L ih =>
    simp only [List.cons_append, ChainSeg_cons, ih]
    constructor
    · rintro ⟨h1, h2, m, h3, h4⟩
      exact ⟨m, ⟨h1, h2, h3⟩, h4⟩
    · rintro ⟨m, ⟨h1, h2, h3⟩, h4⟩
      exact ⟨h1, h2, m, h3, h4⟩

theorem LeftSeg_append {p : Option ID} {A B : List Item} :
    LeftSeg p (A ++ B) ↔ LeftSeg p A ∧ LeftSeg (endOf p A) B := by
  induction A generalizing p with
  | nil => simp
  | cons it A ih => simp [ih, and_assoc]

theorem ChainSeg_get? {items : Store} {c e : Option ID} {L : List Item}
    (h : ChainSeg items c L e) : ∀ it ∈ L, items.get? it.id = some it := by
  induction L generalizing c with
  | nil => intro it hit; simp at hit
  | cons a L ih =>
    intro it hit
    rcases List.mem_cons.mp hit with rfl | hm
    · exact h.2.1
    · exact ih h.2.2 it hm

theorem ChainSeg_unique {items : Store} {c : Option ID} {L L' : List Item}
    (h : ChainSeg items c L none) (h' : ChainSeg items c L' none) : L = L' := by
  induction L generalizing c L' with
  | nil =>
    cases L' with
    | nil => rfl
    | cons it L' =>
      simp only [ChainSeg_nil] at h
      rw [h] at h'
      exact absurd h'.1 (by simp)
  | cons it L ih =>
    cases L' with
    | nil =>
      simp only [ChainSeg_nil] at h'
      rw [h'] at h
      exact absurd h.1 (by simp)
    | cons it' L' =>
      obtain ⟨hc, hg, hrest⟩ := h
      obtain ⟨hc', hg', hrest'⟩ := h'
      rw [hc] at hc'
      have hid : it.id = it'.id := by injection hc'
      rw [← hid] at hg'
      rw [hg] at hg'
      have : it = it' := by injection hg'
      subst this
      rw [ih hrest hrest']

theorem ChainSeg_mem_suffix {items : Store} {c : Option ID} {L₁ L₂ : List Item} {it : Item}
    (h : ChainSeg items c (L₁ ++ it :: L₂) none) :
    ChainSeg items (some it.id) (it :: L₂) none := by
  induction L₁ generalizing c with
  | nil => exact ⟨rfl, h.2.1, h.2.2⟩
  | cons a L ih => exact ih h.2.2

theorem ChainSeg_nodup {items : Store} {c : Option ID} {L : List Item}
    (h : ChainSeg items c L none) : (L.map Item.id).Nodup := by
  induction L generalizing c with
  | nil => simp
  | cons it L ih =>
    obtain ⟨hc, hg, hrest⟩ := h
    simp only [List.map_cons, List.nodup_cons]
    refine ⟨?_, ih hrest⟩
    intro hmem
    obtain ⟨it', hit', hid⟩ := List.mem_map.mp hmem
    have hg' : items.get? it'.id = some it' := ChainSeg_get? hrest it' hit'
    have : it' = it := by
      rw [hid] at hg'
      rw [hg] at hg'
      injection hg' with he
      exact he.symm
    subst this
    obtain ⟨A, B, rfl⟩ := List.append_of_mem hit'
    have hfull : ChainSeg items (some it'.id) ((it' :: A) ++ it' :: B) none :=
      ⟨rfl, hg, hrest⟩
    have hsuf : ChainSeg items (some it'.id) (it' :: B) none :=
      ChainSeg_mem_suffix hfull
    have := ChainSeg_unique hfull hsuf
    have hlen := congrArg List.length this
    simp at hlen
    omega

theorem ChainSeg_length_le {items : Store} {c : Option ID} {L : List Item}
    (h : ChainSeg items c L none) : L.length ≤ items.length := by
  have hnd := ChainSeg_nodup h
  have hsub : (L.map Item.id) ⊆ items.map Prod.fst := by
    intro x hx
    obtain ⟨it, hit, rfl⟩ := List.mem_map.mp hx
    have hg := ChainSeg_get? h it hit
    exact List.mem_map.mpr ⟨(it.id, it), Store.get?_mem hg, rfl⟩
  calc L.length = (L.map Item.id).length := by simp
    _ = (L.map Item.id).toFinset.card := (List.toFinset_card_of_nodup hnd).symm
    _ ≤ (items.map Prod.fst).toFinset.card := by
        apply Finset.card_le_card
        intro x hx
        exact List.mem_toFinset.mpr (hsub (List.mem_toFinset.mp hx))
    _ ≤ (items.map Prod.fst).length := (items.map Prod.fst).toFinset_card_le
    _ = items.length := by simp

theorem ChainSeg_congr {items items' : Store} {c e : Option ID} {L : List Item}
    (hag : ∀ it ∈ L, items'.get? it.id = items.get? it.id) :
    ChainSeg items c L e → ChainSeg items' c L e := by
  induction L generalizing c with
  | nil => exact id
  | cons it L ih =>
    rintro ⟨h1, h2, h3⟩
    refine ⟨h1, ?_, ?_⟩
    · rw [hag it (List.mem_cons_self _ _)]; exact h2
    · exact ih (fun a ha => hag a (List.mem_cons_of_mem _ ha)) h3

theorem chain_fresh {d : Doc} {L : List Item} (hC : ChainSeg d.items d.head L none)
    (hK : clockOk d) : ∀ it ∈ L, it.id ≠ (⟨d.client_id, d.clock⟩ : ID) := by
  intro it hm heq
  have hg := ChainSeg_get? hC it hm
  have hmem := Store.get?_mem hg
  have := hK _ hmem
  rw [heq] at this
  simp at this

/-! ## Pure list lemmas about `vis`, `allTxt`, `fpList`, `lastVisFrom` -/

@[simp] theorem vis_nil : vis [] = [] := rfl

theorem vis_cons (it : Item) (L : List Item) :
    vis (it :: L) = if it.is_deleted then vis L else it.content ++ vis L := rfl

@[simp] theorem allTxt_nil : allTxt [] = [] := rfl

@[simp] theorem allTxt_cons (it : Item) (L : List Item) :
    allTxt (it :: L) = it.content ++ allTxt L := rfl

theorem vis_append (A B : List Item) : vis (A ++ B) = vis A ++ vis B := by
  induction A with
  | nil => simp
  | cons it A ih =>
    by_cases h : it.is_deleted <;> simp [vis_cons, h, ih]

theorem allTxt_append (A B : List Item) : allTxt (A ++ B) = allTxt A ++ allTxt B := by
  induction A with
  | nil => simp
  | cons it A ih => simp [ih]

theorem vis_all_deleted {L : List Item} (h : ∀ it ∈ L, it.is_deleted = true) :
    vis L = [] := by
  induction L with
  | nil => rfl
  | cons it L ih =>
    rw [vis_cons, if_pos (h it (List.mem_cons_self _ _))]
    exact ih fun a ha => h a (List.mem_cons_of_mem _ ha)

theorem vis_cons_of_deleted {it : Item} {L : List Item} (h : it.is_deleted = true) :
    vis (it :: L) = vis L := by
  rw [vis_cons, if_pos h]

theorem vis_cons_of_visible {it : Item} {L : List Item} (h : it.is_deleted = false) :
    vis (it :: L) = it.content ++ vis L := by
  rw [vis_cons, if_neg (by rw [h]; exact Bool.false_ne_true)]

@[simp] theorem lastVisFrom_nil {left : Option ID} : lastVisFrom left [] = left := rfl

theorem lastVisFrom_cons {left : Option ID} {it : Item} {L : List Item} :
    lastVisFrom left (it :: L) =
      if it.is_deleted then lastVisFrom left L else lastVisFrom (some it.id) L := rfl

theorem lastVisFrom_all_deleted {left : Option ID} {L : List Item}
    (h : ∀ it ∈ L, it.is_deleted = true) : lastVisFrom left L = left := by
  induction L with
  | nil => rfl
  | cons it L ih =>
    rw [lastVisFrom_cons, if_pos (h it (List.mem_cons_self _ _))]
    exact ih fun a ha => h a (List.mem_cons_of_mem _ ha)

/-- Decomposition of a list at its last visible element. -/
theorem lastVisFrom_split (L : List Item) :
    (∀ it ∈ L, it.is_deleted = true) ∨
      ∃ M₁ lv M₂, L = M₁ ++ lv :: M₂ ∧ lv.is_deleted = false ∧
        (∀ it ∈ M₂, it.is_deleted = true) ∧
        ∀ left, lastVisFrom left L = some lv.id := by
  induction L with
  | nil => exact Or.inl (by simp)
  | cons it L ih =>
    by_cases h : it.is_deleted
    · rcases ih with hall | ⟨M₁, lv, M₂, rfl, hlv, hM₂, hlast⟩
      · refine Or.inl ?_
        intro a ha
        rcases List.mem_cons.mp ha with rfl | hm
        · exact h
        · exact hall a hm
      · refine Or.inr ⟨it :: M₁, lv, M₂, rfl, hlv, hM₂, ?_⟩
        intro left
        rw [lastVisFrom_cons, if_pos h, hlast]
    · rcases ih with hall | ⟨M₁, lv, M₂, rfl, hlv, hM₂, hlast⟩
      · refine Or.inr ⟨[], it, L, rfl, by simp [h], hall, ?_⟩
        intro left
        rw [lastVisFrom_cons, if_neg h]
        exact lastVisFrom_all_deleted hall
      · refine Or.inr ⟨it :: M₁, lv, M₂, rfl, hlv, hM₂, ?_⟩
        intro left
        rw [lastVisFrom_cons, if_neg h, hlast]

/-- `lastVisFrom` in terms of `getLast?` of the visible sublist. -/
theorem lastVisFrom_eq_getLast (left : Option ID) (L : List Item) :
    lastVisFrom left L =
      match (L.filter (fun it => !it.is_deleted)).getLast? with
      | some lv => some lv.id
      | none => left := by
  induction L generalizing left with
  | nil => rfl
  | cons it L ih =>
    by_cases h : it.is_deleted
    · rw [lastVisFrom_cons, if_pos h, ih]
      simp [List.filter_cons, h]
    · rw [lastVisFrom_cons, if_neg h, ih]
      have hfc : (it :: L).filter (fun a => !a.is_deleted) =
          it :: L.filter (fun a => !a.is_deleted) := by
        simp [List.filter_cons, h]
      rw [hfc]
      cases hf : L.filter (fun a => !a.is_deleted) with
      | nil => simp
      | cons x xs =>
        rw [List.getLast?_cons_cons]
        cases hy : (x :: xs).getLast? with
        | none =>
          have hs := List.getLast?_isSome (l := x :: xs)
          rw [hy] at hs
          simp at hs
        | some y => rfl

/-! ## Transfer lemmas: fuelled traversals equal their list models on chains -/

theorem valueAux_eq_vis {items : Store} {L : List Item} :
    ∀ {c : Option ID} {fuel : Nat}, ChainSeg items c L none → L.length ≤ fuel →
      valueAux items fuel c = vis L := by
  induction L with
  | nil =>
    intro c fuel h _
    rw [ChainSeg_nil] at h
    subst h
    cases fuel <;> rfl
  | cons it L ih =>
    intro c fuel h hf
    obtain ⟨hc, hg, hrest⟩ := h
    subst hc
    cases fuel with
    | zero => simp at hf
    | succ f =>
      simp only [valueAux, hg]
      have hf' : L.length ≤ f := by simp at hf; omega
      by_cases hd : it.is_deleted
      · rw [if_pos hd, vis_cons, if_pos hd]
        exact ih hrest hf'
      · rw [if_neg hd, vis_cons, if_neg hd, ih hrest hf']

theorem chainItemsAux_eq {items : Store} {L : List Item} :
    ∀ {c : Option ID} {fuel : Nat}, ChainSeg items c L none → L.length ≤ fuel →
      chainItemsAux items fuel c = L := by
  induction L with
  | nil =>
    intro c fuel h _
    rw [ChainSeg_nil] at h
    subst h
    cases fuel <;> rfl
  | cons it L ih =>
    intro c fuel h hf
    obtain ⟨hc, hg, hrest⟩ := h
    subst hc
    cases fuel with
    | zero => simp at hf
    | succ f =>
      simp only [chainItemsAux, hg]
      exact congrArg _ (ih hrest (by simp at hf; omega))

theorem findPosAux_eq {items : Store} {L : List Item} :
    ∀ {c : Option ID} {fuel : Nat} {left : Option ID} {index pos : Nat},
      ChainSeg items c L none → L.length ≤ fuel →
      findPosAux items fuel c left index pos = fpList L left index pos := by
  induction L with
  | nil =>
    intro c fuel left index pos h _
    rw [ChainSeg_nil] at h
    subst h
    cases fuel <;> rfl
  | cons it L ih =>
    intro c fuel left index pos h hf
    obtain ⟨hc, hg, hrest⟩ := h
    subst hc
    cases fuel with
    | zero => simp at hf
    | succ f =>
      simp only [findPosAux, hg, fpList]
      have hf' : L.length ≤ f := by simp at hf; omega
      by_cases hd : it.is_deleted
      · rw [if_pos hd, if_pos hd]
        exact ih hrest hf'
      · rw [if_neg hd, if_neg hd]
        by_cases hin : pos < index + it.content.length
        · rw [if_pos hin, if_pos hin]
        · rw [if_neg hin, if_neg hin]
          exact ih hrest hf'

theorem value_eq_vis {d : Doc} {L : List Item} (h : ChainSeg d.items d.head L none) :
    d.value = vis L :=
  valueAux_eq_vis h (le_trans (ChainSeg_length_le h) (Nat.le_succ _))

theorem chainItems_eq {d : Doc} {L : List Item} (h : ChainSeg d.items d.head L none) :
    d.chainItems = L :=
  chainItemsAux_eq h (le_trans (ChainSeg_length_le h) (Nat.le_succ _))

theorem find_pos_eq {d : Doc} {L : List Item} (h : ChainSeg d.items d.head L none)
    (pos : Nat) : d.find_pos pos = fpList L none 0 pos :=
  findPosAux_eq h (le_trans (ChainSeg_length_le h) (Nat.le_succ _))

/-! ## SameShape lemmas -/

theorem SameShape_rfl (L : List Item) : SameShape L L :=
  List.forall₂_same.mpr fun _ _ => ⟨rfl, rfl, rfl, rfl⟩

theorem SameShape_append {A B A' B' : List Item} (h : SameShape A B)
    (h' : SameShape A' B') : SameShape (A ++ A') (B ++ B') :=
  List.rel_append h h'

theorem SameShape_vis {A B : List Item} (h : SameShape A B) : vis A = vis B := by
  induction h with
  | nil => rfl
  | cons hab _ ih =>
    obtain ⟨_, _, hc, hd⟩ := hab
    rw [vis_cons, vis_cons, hc, hd, ih]

theorem SameShape_allTxt {A B : List Item} (h : SameShape A B) : allTxt A = allTxt B := by
  induction h with
  | nil => rfl
  | cons hab _ ih =>
    obtain ⟨_, _, hc, _⟩ := hab
    rw [allTxt_cons, allTxt_cons, hc, ih]

theorem SameShape_ids {A B : List Item} (h : SameShape A B) :
    A.map Item.id = B.map Item.id := by
  induction h with
  | nil => rfl
  | cons hab _ ih =>
    obtain ⟨hid, _, _, _⟩ := hab
    simp [hid, ih]

theorem SameShape_endOf {A B : List Item} (h : SameShape A B) :
    ∀ p, endOf p A = endOf p B := by
  induction h with
  | nil => exact fun _ => rfl
  | cons hab _ ih =>
    intro p
    obtain ⟨hid, _, _, _⟩ := hab
    simp [hid, ih]

theorem SameShape_LeftSeg {A B : List Item} (h : SameShape A B) :
    ∀ p, LeftSeg p A → LeftSeg p B := by
  induction h with
  | nil => exact fun _ => id
  | cons hab _ ih =>
    intro p hp
    obtain ⟨hid, hl, _, _⟩ := hab
    exact ⟨by rw [← hl, hp.1], by rw [← hid]; exact ih _ hp.2⟩

theorem SameShape_lastVisFrom {A B : List Item} (h : SameShape A B) :
    ∀ left, lastVisFrom left A = lastVisFrom left B := by
  induction h with
  | nil => exact fun _ => rfl
  | cons hab _ ih =>
    intro left
    obtain ⟨hid, _, _, hd⟩ := hab
    rw [lastVisFrom_cons, lastVisFrom_cons, hd, hid, ih, ih]

/-! ## Characterisation of `split_item` -/

/-- The freshly minted left part produced by splitting `it` at `off` in `d`. -/
def leftSplitOf (d : Doc) (it : Item) (off : Nat) : Item :=
  ⟨⟨d.client_id, d.clock⟩, it.left, some it.id, it.content.take off, false⟩

/-- What the original item becomes after splitting at `off` in `d`. -/
def rightSplitOf (d : Doc) (it : Item) (off : Nat) : Item :=
  { it with content := it.content.drop off, left := some (⟨d.client_id, d.clock⟩ : ID) }

theorem split_item_eq_some {d : Doc} {iid prev : ID} {it : Item}
    (hget : d.items.get? iid = some it) (hl : it.left = some prev) (off : Nat) :
    d.split_item iid off =
      (⟨d.client_id, d.clock⟩,
       { client_id := d.client_id,
         clock := d.clock + (it.content.take off).length,
         items :=
           ((d.items.insert iid
             { it with content := it.content.drop off,
                       left := some ⟨d.client_id, d.clock⟩ }).insert
             ⟨d.client_id, d.clock⟩
             ⟨⟨d.client_id, d.clock⟩, it.left, some iid, it.content.take off, false⟩).setRight
             prev (some ⟨d.client_id, d.clock⟩),
         pending := d.pending,
         state_vector := svInsert d.state_vector d.client_id
           (d.clock + (it.content.take off).length - 1),
         head := d.head }) := by
  unfold Doc.split_item
  rw [hget]
  simp only [Doc.next_id, hl]

theorem split_item_eq_none {d : Doc} {iid : ID} {it : Item}
    (hget : d.items.get? iid = some it) (hl : it.left = none) (off : Nat) :
    d.split_item iid off =
      (⟨d.client_id, d.clock⟩,
       { client_id := d.client_id,
         clock := d.clock + (it.content.take off).length,
         items :=
           (d.items.insert iid
             { it with content := it.content.drop off,
                       left := some ⟨d.client_id, d.clock⟩ }).insert
             ⟨d.client_id, d.clock⟩
             ⟨⟨d.client_id, d.clock⟩, it.left, some iid, it.content.take off, false⟩,
         pending := d.pending,
         state_vector := svInsert d.state_vector d.client_id
           (d.clock + (it.content.take off).length - 1),
         head := some ⟨d.client_id, d.clock⟩ }) := by
  unfold Doc.split_item
  rw [hget]
  simp only [Doc.next_id, hl]

/-! ## take/drop helpers -/

theorem take_len_add (a b : List Char) (n : Nat) :
    (a ++ b).take (a.length + n) = a ++ b.take n := by
  induction a with
  | nil => simp
  | cons x a ih =>
    have h : (x :: a).length + n = (a.length + n) + 1 := by
      rw [List.length_cons]; omega
    rw [List.cons_append, h, List.take_succ_cons, ih, List.cons_append]

theorem drop_len_add (a b : List Char) (n : Nat) :
    (a ++ b).drop (a.length + n) = b.drop n := by
  induction a with
  | nil => simp
  | cons x a ih =>
    have h : (x :: a).length + n = (a.length + n) + 1 := by
      rw [List.length_cons]; omega
    rw [List.cons_append, h, List.drop_succ_cons, ih]
    

theorem take_append_le (a b : List Char) {n : Nat} (h : n ≤ a.length) :
    (a ++ b).take n = a.take n := by
  induction a generalizing n with
  | nil =>
    have h0 : n = 0 := Nat.le_zero.mp h
    subst h0; simp
  | cons x a ih =>
    cases n with
    | zero => simp
    | succ k =>
      rw [List.cons_append, List.take_succ_cons, List.take_succ_cons,
        ih (by rw [List.length_cons] at h; omega)]

theorem drop_append_le (a b : List Char) {n : Nat} (h : n ≤ a.length) :
    (a ++ b).drop n = a.drop n ++ b := by
  induction a generalizing n with
  | nil =>
    have h0 : n = 0 := Nat.le_zero.mp h
    subst h0; simp
  | cons x a ih =>
    cases n with
    | zero => simp
    | succ k =>
      rw [List.cons_append, List.drop_succ_cons, List.drop_succ_cons,
        ih (by rw [List.length_cons] at h; omega)]

theorem take_of_len_le {l : List Char} {n : Nat} (h : l.length ≤ n) : l.take n = l := by
  induction l generalizing n with
  | nil => simp
  | cons x l ih =>
    cases n with
    | zero => rw [List.length_cons] at h; omega
    | succ k =>
      rw [List.take_succ_cons, ih (by rw [List.length_cons] at h; omega)]

theorem drop_of_len_le {l : List Char} {n : Nat} (h : l.length ≤ n) : l.drop n = [] := by
  induction l generalizing n with
  | nil => simp
  | cons x l ih =>
    cases n with
    | zero => rw [List.length_cons] at h; omega
    | succ k =>
      rw [List.drop_succ_cons, ih (by rw [List.length_cons] at h; omega)]

/-- `Doc.lastVisible` agrees with `lastVisFrom none` over the chain. -/
theorem lastVisible_eq {d : Doc} {L : List Item} (hC : ChainSeg d.items d.head L none) :
    d.lastVisible = lastVisFrom none L := by
  rw [Doc.lastVisible, chainItems_eq hC, lastVisFrom_eq_getLast]
  cases (L.filter fun it => !it.is_deleted).getLast? <;> rfl

/-! ## Unfolding lemmas for `Doc.insert`, one per `find_pos` outcome -/

theorem insert_eq_none_none {d : Doc} {pos : Nat} {text : List Char}
    (ht : text.isEmpty = false) (hfp : d.find_pos pos = (none, none, 0)) :
    d.insert pos text =
      { client_id := d.client_id, clock := d.clock + text.length,
        items := d.items.insert ⟨d.client_id, d.clock⟩
          ⟨⟨d.client_id, d.clock⟩, none, none, text, false⟩,
        pending := d.pending,
        state_vector := svInsert d.state_vector d.client_id (d.clock + text.length - 1),
        head := some ⟨d.client_id, d.clock⟩ } := by
  have hcond : ¬(text.isEmpty = true) := by rw [ht]; exact Bool.false_ne_true
  unfold Doc.insert
  rw [if_neg hcond, hfp]
  rfl

theorem insert_eq_some_none {d : Doc} {pos : Nat} {text : List Char} {lid : ID}
    (ht : text.isEmpty = false) (hfp : d.find_pos pos = (some lid, none, 0)) :
    d.insert pos text =
      { client_id := d.client_id, clock := d.clock + text.length,
        items := (d.items.insert ⟨d.client_id, d.clock⟩
          ⟨⟨d.client_id, d.clock⟩, some lid, none, text, false⟩).setRight lid
          (some ⟨d.client_id, d.clock⟩),
        pending := d.pending,
        state_vector := svInsert d.state_vector d.client_id (d.clock + text.length - 1),
        head := d.head } := by
  have hcond : ¬(text.isEmpty = true) := by rw [ht]; exact Bool.false_ne_true
  unfold Doc.insert
  rw [if_neg hcond, hfp]
  rfl

theorem insert_eq_none_some {d : Doc} {pos : Nat} {text : List Char} {rid : ID}
    (ht : text.isEmpty = false) (hfp : d.find_pos pos = (none, some rid, 0)) :
    d.insert pos text =
      { client_id := d.client_id, clock := d.clock + text.length,
        items := (d.items.insert ⟨d.client_id, d.clock⟩
          ⟨⟨d.client_id, d.clock⟩, none, some rid, text, false⟩).setLeft rid
          (some ⟨d.client_id, d.clock⟩),
        pending := d.pending,
        state_vector := svInsert d.state_vector d.client_id (d.clock + text.length - 1),
        head := some ⟨d.client_id, d.clock⟩ } := by
  have hcond : ¬(text.isEmpty = true) := by rw [ht]; exact Bool.false_ne_true
  unfold Doc.insert
  rw [if_neg hcond, hfp]
  rfl

theorem insert_eq_some_some {d : Doc} {pos : Nat} {text : List Char} {lid rid : ID}
    (ht : text.isEmpty = false) (hfp : d.find_pos pos = (some lid, some rid, 0)) :
    d.insert pos text =
      { client_id := d.client_id, clock := d.clock + text.length,
        items := ((d.items.insert ⟨d.client_id, d.clock⟩
          ⟨⟨d.client_id, d.clock⟩, some lid, some rid, text, false⟩).setRight lid
          (some ⟨d.client_id, d.clock⟩)).setLeft rid (some ⟨d.client_id, d.clock⟩),
        pending := d.pending,
        state_vector := svInsert d.state_vector d.client_id (d.clock + text.length - 1),
        head := d.head } := by
  have hcond : ¬(text.isEmpty = true) := by rw [ht]; exact Bool.false_ne_true
  unfold Doc.insert
  rw [if_neg hcond, hfp]
  rfl

theorem insert_eq_split {d d1 : Doc} {pos : Nat} {text : List Char} {l0 : Option ID}
    {rid sid : ID} {o : Nat} (ht : text.isEmpty = false)
    (hfp : d.find_pos pos = (l0, some rid, o)) (ho : 0 < o)
    (hsplit : d.split_item rid o = (sid, d1)) :
    d.insert pos text =
      { client_id := d1.client_id, clock := d1.clock + text.length,
        items := ((d1.items.insert ⟨d1.client_id, d1.clock⟩
          ⟨⟨d1.client_id, d1.clock⟩, some sid, some rid, text, false⟩).setRight sid
          (some ⟨d1.client_id, d1.clock⟩)).setLeft rid (some ⟨d1.client_id, d1.clock⟩),
        pending := d1.pending,
        state_vector := svInsert d1.state_vector d1.client_id
          (d1.clock + text.length - 1),
        head := d1.head } := by
  have hcond : ¬(text.isEmpty = true) := by rw [ht]; exact Bool.false_ne_true
  unfold Doc.insert
  rw [if_neg hcond, hfp]
  dsimp only
  rw [if_pos ho, hsplit]
  rfl

/-- Core surgery lemma: splitting the chain item `it` (at a proper offset)
turns the chain `L₁ ++ it :: L₂` into `L₁' ++ leftSplit :: rightSplit :: L₂`,
where `L₁'` differs from `L₁` at most in the `right` pointer of its last
element, and preserves every well-formedness component. -/
theorem split_item_spec {d : Doc} {L₁ L₂ : List Item} {it : Item} {off : Nat}
    (hC : ChainSeg d.items d.head (L₁ ++ it :: L₂) none)
    (hL : LeftSeg none (L₁ ++ it :: L₂))
    (hV : visCov d.items (L₁ ++ it :: L₂))
    (hK : clockOk d)
    (hoff : 0 < off) (hlt : off < it.content.length) :
    ∃ L₁' d',
      d.split_item it.id off = (⟨d.client_id, d.clock⟩, d') ∧
      SameShape L₁ L₁' ∧
      d'.client_id = d.client_id ∧
      d'.clock = d.clock + off ∧
      d'.pending = d.pending ∧
      ChainSeg d'.items d'.head
        (L₁' ++ leftSplitOf d it off :: rightSplitOf d it off :: L₂) none ∧
      LeftSeg none (L₁' ++ leftSplitOf d it off :: rightSplitOf d it off :: L₂) ∧
      visCov d'.items (L₁' ++ leftSplitOf d it off :: rightSplitOf d it off :: L₂) ∧
      clockOk d' ∧
      d'.items.get? it.id = some (rightSplitOf d it off) ∧
      d'.items.get? ⟨d.client_id, d.clock⟩ = some (leftSplitOf d it off) := by
  have htake : (it.content.take off).length = off := by
    rw [List.length_take]; omega
  obtain ⟨m, hC₁, hC₂⟩ := ChainSeg_append.mp hC
  have hm : m = some it.id := hC₂.1
  have hget : d.items.get? it.id = some it := hC₂.2.1
  have hCL₂ : ChainSeg d.items it.right L₂ none := hC₂.2.2
  subst hm
  have hnd := ChainSeg_nodup hC
  rw [List.map_append, List.map_cons, List.nodup_append] at hnd
  obtain ⟨hnd₁, hnd₂, hdisj⟩ := hnd
  have hne1 : ∀ a ∈ L₁, a.id ≠ it.id := by
    intro a ha he
    exact hdisj (List.mem_map.mpr ⟨a, ha, rfl⟩) (by rw [he]; exact List.mem_cons_self _ _)
  have hne2 : ∀ a ∈ L₂, a.id ≠ it.id := by
    intro a ha he
    exact (List.nodup_cons.mp hnd₂).1 (by rw [← he]; exact List.mem_map.mpr ⟨a, ha, rfl⟩)
  have hne12 : ∀ a ∈ L₂, ∀ b ∈ L₁, a.id ≠ b.id := by
    intro a ha b hb he
    exact hdisj (List.mem_map.mpr ⟨b, hb, rfl⟩)
      (by rw [← he]; exact List.mem_cons_of_mem _ (List.mem_map.mpr ⟨a, ha, rfl⟩))
  have hfresh := chain_fresh hC hK
  have hitf : it.id ≠ (⟨d.client_id, d.clock⟩ : ID) :=
    hfresh it (List.mem_append.mpr (Or.inr (List.mem_cons_self _ _)))
  have hf1 : ∀ a ∈ L₁, a.id ≠ (⟨d.client_id, d.clock⟩ : ID) := fun a ha =>
    hfresh a (List.mem_append.mpr (Or.inl ha))
  have hf2 : ∀ a ∈ L₂, a.id ≠ (⟨d.client_id, d.clock⟩ : ID) := fun a ha =>
    hfresh a (List.mem_append.mpr (Or.inr (List.mem_cons_of_mem _ ha)))
  obtain ⟨hL₁, hL₂'⟩ := LeftSeg_append.mp hL
  have hitleft : it.left = endOf none L₁ := hL₂'.1
  have hLtail : LeftSeg (some it.id) L₂ := hL₂'.2
  have hkit : it.id.client = d.client_id → it.id.clock < d.clock :=
    hK _ (Store.get?_mem hget)
  rcases List.eq_nil_or_concat L₁ with rfl | ⟨M, p, hMp⟩
  · -- the split item is at the head of the chain
    have hln : it.left = none := by rw [hitleft]; rfl
    have heq := split_item_eq_none hget hln off
    have g_it :
        ((d.items.insert it.id (rightSplitOf d it off)).insert ⟨d.client_id, d.clock⟩
          (leftSplitOf d it off)).get? it.id = some (rightSplitOf d it off) := by
      rw [Store.get?_insert_ne _ _ hitf, Store.get?_insert_self]
    have g_nid :
        ((d.items.insert it.id (rightSplitOf d it off)).insert ⟨d.client_id, d.clock⟩
          (leftSplitOf d it off)).get? ⟨d.client_id, d.clock⟩ =
          some (leftSplitOf d it off) :=
      Store.get?_insert_self _ _ _
    have g_L₂ : ∀ a ∈ L₂,
        ((d.items.insert it.id (rightSplitOf d it off)).insert ⟨d.client_id, d.clock⟩
          (leftSplitOf d it off)).get? a.id = d.items.get? a.id := by
      intro a ha
      rw [Store.get?_insert_ne _ _ (hf2 a ha), Store.get?_insert_ne _ _ (hne2 a ha)]
    refine ⟨[], _, heq, SameShape_rfl [], rfl, by simp [htake], rfl, ?_, ?_, ?_, ?_,
      g_it, g_nid⟩
    · -- ChainSeg
      refine ⟨rfl, g_nid, rfl, g_it, ?_⟩
      exact ChainSeg_congr (fun a ha => g_L₂ a ha) hCL₂
    · -- LeftSeg
      exact ⟨hln, rfl, hLtail⟩
    · -- visCov
      intro i itq hgi hvq
      simp only [List.nil_append, List.map_cons]
      by_cases h1 : i = (⟨d.client_id, d.clock⟩ : ID)
      · subst h1
        exact List.mem_cons_self _ _
      · by_cases h2 : i = it.id
        · subst h2
          exact List.mem_cons_of_mem _ (List.mem_cons_self _ _)
        · rw [Store.get?_insert_ne _ _ h1, Store.get?_insert_ne _ _ h2] at hgi
          have := hV i itq hgi hvq
          simp only [List.nil_append, List.map_cons] at this
          rcases List.mem_cons.mp this with he | hm
          · exact absurd he h2
          · exact List.mem_cons_of_mem _ (List.mem_cons_of_mem _ hm)
    · -- clockOk
      intro q hq hcl
      dsimp only at hcl ⊢
      rcases Store.mem_insert_iff.mp hq with rfl | ⟨hq2, hqne⟩
      · dsimp only [leftSplitOf]
        simp only [htake]
        omega
      · rcases Store.mem_insert_iff.mp hq2 with rfl | ⟨hq3, hqne2⟩
        · dsimp only [rightSplitOf] at hcl ⊢
          have := hkit hcl
          omega
        · have := hK q hq3 hcl
          omega
  · -- the split item has a predecessor `p` on the chain
    rw [List.concat_eq_append] at hMp
    subst hMp
    have hpl : it.left = some p.id := by rw [hitleft, endOf_concat]
    have heq := split_item_eq_some hget hpl off
    obtain ⟨m₂, hCM, hCp⟩ := ChainSeg_append.mp hC₁
    have hm₂ : m₂ = some p.id := hCp.1
    subst hm₂
    have hgp : d.items.get? p.id = some p := hCp.2.1
    have hpr : p.right = some it.id := hCp.2.2
    have hpmem : p ∈ M ++ [p] := List.mem_append.mpr (Or.inr (List.mem_cons_self _ _))
    have hp_ne_it : p.id ≠ it.id := hne1 p hpmem
    have hp_f : p.id ≠ (⟨d.client_id, d.clock⟩ : ID) := hf1 p hpmem
    have hMne : ∀ a ∈ M, a.id ≠ p.id := by
      rw [List.map_append, List.nodup_append] at hnd₁
      intro a ha he
      exact hnd₁.2.2 (List.mem_map.mpr ⟨a, ha, rfl⟩) (by rw [he]; simp)
    have g_p :
        (((d.items.insert it.id (rightSplitOf d it off)).insert ⟨d.client_id, d.clock⟩
          (leftSplitOf d it off)).setRight p.id (some ⟨d.client_id, d.clock⟩)).get? p.id =
          some { p with right := some (⟨d.client_id, d.clock⟩ : ID) } := by
      have h2 : ((d.items.insert it.id (rightSplitOf d it off)).insert
          ⟨d.client_id, d.clock⟩ (leftSplitOf d it off)).get? p.id = some p := by
        rw [Store.get?_insert_ne _ _ hp_f, Store.get?_insert_ne _ _ hp_ne_it]
        exact hgp
      exact Store.get?_setRight_self h2 _
    have g_nid :
        (((d.items.insert it.id (rightSplitOf d it off)).insert ⟨d.client_id, d.clock⟩
          (leftSplitOf d it off)).setRight p.id (some ⟨d.client_id, d.clock⟩)).get?
          ⟨d.client_id, d.clock⟩ = some (leftSplitOf d it off) := by
      rw [Store.get?_setRight_ne _ _ (Ne.symm hp_f), Store.get?_insert_self]
    have g_it :
        (((d.items.insert it.id (rightSplitOf d it off)).insert ⟨d.client_id, d.clock⟩
          (leftSplitOf d it off)).setRight p.id (some ⟨d.client_id, d.clock⟩)).get?
          it.id = some (rightSplitOf d it off) := by
      rw [Store.get?_setRight_ne _ _ (Ne.symm hp_ne_it),
        Store.get?_insert_ne _ _ hitf, Store.get?_insert_self]
    have g_M : ∀ a ∈ M,
        (((d.items.insert it.id (rightSplitOf d it off)).insert ⟨d.client_id, d.clock⟩
          (leftSplitOf d it off)).setRight p.id (some ⟨d.client_id, d.clock⟩)).get?
          a.id = d.items.get? a.id := by
      intro a ha
      have haL₁ : a ∈ M ++ [p] := List.mem_append.mpr (Or.inl ha)
      rw [Store.get?_setRight_ne _ _ (hMne a ha),
        Store.get?_insert_ne _ _ (hf1 a haL₁), Store.get?_insert_ne _ _ (hne1 a haL₁)]
    have g_L₂ : ∀ a ∈ L₂,
        (((d.items.insert it.id (rightSplitOf d it off)).insert ⟨d.client_id, d.clock⟩
          (leftSplitOf d it off)).setRight p.id (some ⟨d.client_id, d.clock⟩)).get?
          a.id = d.items.get? a.id := by
      intro a ha
      rw [Store.get?_setRight_ne _ _ (hne12 a ha p hpmem),
        Store.get?_insert_ne _ _ (hf2 a ha), Store.get?_insert_ne _ _ (hne2 a ha)]
    have hshape : SameShape (M ++ [p])
        (M ++ [{ p with right := some (⟨d.client_id, d.clock⟩ : ID) }]) :=
      SameShape_append (SameShape_rfl M)
        (List.Forall₂.cons ⟨rfl, rfl, rfl, rfl⟩ List.Forall₂.nil)
    refine ⟨M ++ [{ p with right := some (⟨d.client_id, d.clock⟩ : ID) }], _, heq,
      hshape, rfl, by simp [htake], rfl, ?_, ?_, ?_, ?_, g_it, g_nid⟩
    · -- ChainSeg
      rw [List.append_assoc]
      refine ChainSeg_append.mpr ⟨some p.id, ?_, ?_⟩
      · exact ChainSeg_congr (fun a ha => g_M a ha) hCM
      · exact ⟨rfl, g_p, rfl, g_nid, rfl, g_it,
          ChainSeg_congr (fun a ha => g_L₂ a ha) hCL₂⟩
    · -- LeftSeg
      rw [List.append_assoc]
      obtain ⟨hLM, hLp⟩ := LeftSeg_append.mp hL₁
      have hpleft : p.left = endOf none M := hLp.1
      refine LeftSeg_append.mpr ⟨hLM, ?_⟩
      exact ⟨hpleft, hpl, rfl, hLtail⟩
    · -- visCov
      intro i itq hgi hvq
      have hids : ((M ++ [{ p with right := some (⟨d.client_id, d.clock⟩ : ID) }]) ++
          leftSplitOf d it off :: rightSplitOf d it off :: L₂).map Item.id =
          (M.map Item.id) ++
            p.id :: (⟨d.client_id, d.clock⟩ : ID) :: it.id :: L₂.map Item.id := by
        simp [leftSplitOf, rightSplitOf]
      rw [hids]
      have holdids : ((M ++ [p]) ++ it :: L₂).map Item.id =
          (M.map Item.id) ++ p.id :: it.id :: L₂.map Item.id := by simp
      by_cases hp1 : i = p.id
      · subst hp1
        exact List.mem_append.mpr (Or.inr (List.mem_cons_self _ _))
      · by_cases h1 : i = (⟨d.client_id, d.clock⟩ : ID)
        · subst h1
          exact List.mem_append.mpr
            (Or.inr (List.mem_cons_of_mem _ (List.mem_cons_self _ _)))
        · by_cases h2 : i = it.id
          · subst h2
            exact List.mem_append.mpr (Or.inr (List.mem_cons_of_mem _
              (List.mem_cons_of_mem _ (List.mem_cons_self _ _))))
          · rw [Store.get?_setRight_ne _ _ hp1, Store.get?_insert_ne _ _ h1,
              Store.get?_insert_ne _ _ h2] at hgi
            have := hV i itq hgi hvq
            rw [holdids] at this
            rcases List.mem_append.mp this with hm | hm
            · exact List.mem_append.mpr (Or.inl hm)
            · rcases List.mem_cons.mp hm with he | hm2
              · exact absurd he hp1
              · rcases List.mem_cons.mp hm2 with he | hm3
                · exact absurd he h2
                · refine List.mem_append.mpr (Or.inr ?_)
                  exact List.mem_cons_of_mem _ (List.mem_cons_of_mem _
                    (List.mem_cons_of_mem _ hm3))
    · -- clockOk
      intro q hq hcl
      dsimp only at hcl ⊢
      rcases Store.mem_setRight hq with ⟨hq2, _⟩ | ⟨pg, hpg, rfl⟩
      · rcases Store.mem_insert_iff.mp hq2 with rfl | ⟨hq3, _⟩
        · dsimp only [leftSplitOf]
          simp only [htake]
          omega
        · rcases Store.mem_insert_iff.mp hq3 with rfl | ⟨hq4, _⟩
          · dsimp only [rightSplitOf] at hcl ⊢
            have := hkit hcl
            omega
          · have := hK q hq4 hcl
            omega
      · have hpm := Store.get?_mem hgp
        dsimp only at hcl ⊢
        have := hK (p.id, p) hpm hcl
        dsimp only at this
        omega

@[simp] theorem fpList_nil {left : Option ID} {index pos : Nat} :
    fpList [] left index pos = (left, none, 0) := rfl

theorem fpList_cons {it : Item} {L : List Item} {left : Option ID} {index pos : Nat} :
    fpList (it :: L) left index pos =
      if it.is_deleted then fpList L left index pos
      else if pos < index + it.content.length then (left, some it.id, pos - index)
      else fpList L (some it.id) (index + it.content.length) pos := rfl

/-- `fpList` when `pos` is at or past the visible length: no right item. -/
theorem fpList_past_end {L : List Item} {left : Option ID} {index pos : Nat}
    (h : index + (vis L).length ≤ pos) :
    fpList L left index pos = (lastVisFrom left L, none, 0) := by
  induction L generalizing left index with
  | nil => simp
  | cons it L ih =>
    by_cases hd : it.is_deleted
    · rw [fpList_cons, if_pos hd, lastVisFrom_cons, if_pos hd]
      exact ih (by rw [vis_cons, if_pos hd] at h; exact h)
    · rw [vis_cons, if_neg hd] at h
      simp only [List.length_append] at h
      rw [fpList_cons, if_neg hd, if_neg (by omega), lastVisFrom_cons, if_neg hd]
      exact ih (by omega)

/-- `fpList` when `pos` is strictly inside the visible text: it finds the
visible item containing `pos`. -/
theorem fpList_found {L : List Item} {left : Option ID} {index pos : Nat}
    (h : pos < index + (vis L).length) (hle : index ≤ pos) :
    ∃ L₁ it L₂, L = L₁ ++ it :: L₂ ∧ it.is_deleted = false ∧
      index + (vis L₁).length ≤ pos ∧
      pos < index + (vis L₁).length + it.content.length ∧
      fpList L left index pos =
        (lastVisFrom left L₁, some it.id, pos - (index + (vis L₁).length)) := by
  induction L generalizing left index with
  | nil => simp at h; omega
  | cons it L ih =>
    by_cases hd : it.is_deleted
    · rw [vis_cons, if_pos hd] at h
      obtain ⟨L₁, a, L₂, rfl, h1, h2, h3, h4⟩ := ih h hle
      refine ⟨it :: L₁, a, L₂, rfl, h1, ?_, ?_, ?_⟩
      · rwa [vis_cons, if_pos hd]
      · rwa [vis_cons, if_pos hd]
      · rw [fpList_cons, if_pos hd, lastVisFrom_cons, if_pos hd, vis_cons, if_pos hd]
        exact h4
    · by_cases hin : pos < index + it.content.length
      · refine ⟨[], it, L, rfl, by simp [hd], by simpa, by simpa, ?_⟩
        rw [fpList_cons, if_neg hd, if_pos hin]
        simp
      · rw [vis_cons, if_neg hd] at h
        simp only [List.length_append] at h
        obtain ⟨L₁, a, L₂, rfl, h1, h2, h3, h4⟩ :=
          @ih (some it.id) (index + it.content.length) (by omega) (by omega)
        refine ⟨it :: L₁, a, L₂, rfl, h1, ?_, ?_, ?_⟩
        · rw [vis_cons, if_neg hd]; simp only [List.length_append]; omega
        · rw [vis_cons, if_neg hd]; simp only [List.length_append]; omega
        · rw [fpList_cons, if_neg hd, if_neg hin, lastVisFrom_cons, if_neg hd, h4,
            vis_cons, if_neg hd]
          simp only [List.length_append]
          congr 2
          omega

/-- Grand specification of local `insert` on well-formed documents: the result
is well formed and its visible text is the old text with `text` spliced in at
`pos` (positions past the end append after the last visible item). -/
theorem insert_spec {d : Doc} (hWF : d.WF) (pos : Nat) {text : List Char}
    (ht : text ≠ []) :
    (d.insert pos text).WF ∧
    (d.insert pos text).value = d.value.take pos ++ text ++ d.value.drop pos ∧
    (d.insert pos text).client_id = d.client_id ∧
    (d.value.length ≤ pos →
      (d.insert pos text).items.get? ⟨d.client_id, d.clock⟩ =
        some ⟨⟨d.client_id, d.clock⟩, d.lastVisible, none, text, false⟩) := by
  obtain ⟨L, hC, hL, hV, hK⟩ := hWF
  have hval : d.value = vis L := value_eq_vis hC
  have hfp0 := find_pos_eq hC pos
  have htne : text.isEmpty = false := by
    cases text with
    | nil => exact absurd rfl ht
    | cons a l => rfl
  have htlen : 0 < text.length := List.length_pos.mpr ht
  have hlvis := lastVisible_eq hC
  rcases Nat.lt_or_ge pos (vis L).length with hpos | hpos
  · -- A: the insertion point is strictly inside the visible text
    obtain ⟨L₁, itm, L₂, rfl, hdel, hge, hlt, hfpL⟩ :=
      @fpList_found L none 0 pos (by omega) (Nat.zero_le _)
    rw [hfpL] at hfp0
    simp only [Nat.zero_add] at hfp0 hge hlt
    have hnd := ChainSeg_nodup hC
    rw [List.map_append, List.map_cons, List.nodup_append] at hnd
    obtain ⟨hnd₁, hnd₂, hdisj⟩ := hnd
    have hne1 : ∀ a ∈ L₁, a.id ≠ itm.id := by
      intro a ha he
      exact hdisj (List.mem_map.mpr ⟨a, ha, rfl⟩)
        (by rw [he]; exact List.mem_cons_self _ _)
    have hne2 : ∀ a ∈ L₂, a.id ≠ itm.id := by
      intro a ha he
      exact (List.nodup_cons.mp hnd₂).1
        (by rw [← he]; exact List.mem_map.mpr ⟨a, ha, rfl⟩)
    have hfresh := chain_fresh hC hK
    have hitf : itm.id ≠ (⟨d.client_id, d.clock⟩ : ID) :=
      hfresh itm (List.mem_append.mpr (Or.inr (List.mem_cons_self _ _)))
    have hf1 : ∀ a ∈ L₁, a.id ≠ (⟨d.client_id, d.clock⟩ : ID) := fun a ha =>
      hfresh a (List.mem_append.mpr (Or.inl ha))
    have hf2 : ∀ a ∈ L₂, a.id ≠ (⟨d.client_id, d.clock⟩ : ID) := fun a ha =>
      hfresh a (List.mem_append.mpr (Or.inr (List.mem_cons_of_mem _ ha)))
    obtain ⟨m, hCL₁, hCr⟩ := ChainSeg_append.mp hC
    have hm : m = some itm.id := hCr.1
    subst hm
    have hgitm : d.items.get? itm.id = some itm := hCr.2.1
    have hCL₂ : ChainSeg d.items itm.right L₂ none := hCr.2.2
    obtain ⟨hLL₁, hLr⟩ := LeftSeg_append.mp hL
    have hLtail : LeftSeg (some itm.id) L₂ := hLr.2
    have hnotpast : ¬(d.value.length ≤ pos) := by rw [hval]; omega
    have hvisL : vis (L₁ ++ itm :: L₂) = vis L₁ ++ (itm.content ++ vis L₂) := by
      rw [vis_append, vis_cons, if_neg (by rw [hdel]; exact Bool.false_ne_true)]
    by_cases hoff : 0 < pos - (vis L₁).length
    · -- A1: strictly inside `itm`: split first
      have hofflt : pos - (vis L₁).length < itm.content.length := by omega
      obtain ⟨L₁p, d1, hsplit, hshape, hcl1, hck1, hpd1, hC1, hL1, hV1, hK1, hgit1,
        hgnid1⟩ := split_item_spec hC hL hV hK hoff hofflt
      have hres := insert_eq_split htne hfp0 hoff hsplit
      have hnd1 := ChainSeg_nodup hC1
      rw [List.map_append, List.map_cons, List.map_cons, List.nodup_append] at hnd1
      obtain ⟨hnd1a, hnd1b, hdisj1⟩ := hnd1
      have hfresh1 := chain_fresh hC1 hK1
      have hmemlS : leftSplitOf d itm (pos - (vis L₁).length) ∈
          L₁p ++ leftSplitOf d itm (pos - (vis L₁).length) ::
            rightSplitOf d itm (pos - (vis L₁).length) :: L₂ :=
        List.mem_append.mpr (Or.inr (List.mem_cons_self _ _))
      have hmemitR : rightSplitOf d itm (pos - (vis L₁).length) ∈
          L₁p ++ leftSplitOf d itm (pos - (vis L₁).length) ::
            rightSplitOf d itm (pos - (vis L₁).length) :: L₂ :=
        List.mem_append.mpr (Or.inr (List.mem_cons_of_mem _ (List.mem_cons_self _ _)))
      have hn1f : (⟨d.client_id, d.clock⟩ : ID) ≠ (⟨d1.client_id, d1.clock⟩ : ID) :=
        hfresh1 _ hmemlS
      have hitmf2 : itm.id ≠ (⟨d1.client_id, d1.clock⟩ : ID) :=
        hfresh1 (rightSplitOf d itm (pos - (vis L₁).length)) hmemitR
      have hf2' : ∀ a ∈ L₂, a.id ≠ (⟨d1.client_id, d1.clock⟩ : ID) := fun a ha =>
        hfresh1 a (List.mem_append.mpr (Or.inr
          (List.mem_cons_of_mem _ (List.mem_cons_of_mem _ ha))))
      have hf1' : ∀ a ∈ L₁p, a.id ≠ (⟨d1.client_id, d1.clock⟩ : ID) := fun a ha =>
        hfresh1 a (List.mem_append.mpr (Or.inl ha))
      have hL₁p_ne_n1 : ∀ a ∈ L₁p, a.id ≠ (⟨d.client_id, d.clock⟩ : ID) := by
        intro a ha he
        exact hdisj1 (List.mem_map.mpr ⟨a, ha, rfl⟩)
          (by rw [he]; exact List.mem_cons_self _ _)
      have hL₁p_ne_itm : ∀ a ∈ L₁p, a.id ≠ itm.id := by
        intro a ha he
        exact hdisj1 (List.mem_map.mpr ⟨a, ha, rfl⟩)
          (by rw [he]; exact List.mem_cons_of_mem _ (List.mem_cons_self _ _))
      have hn1_notin : (⟨d.client_id, d.clock⟩ : ID) ∉ (itm.id :: L₂.map Item.id) :=
        (List.nodup_cons.mp hnd1b).1
      have hL₂_ne_n1 : ∀ a ∈ L₂, a.id ≠ (⟨d.client_id, d.clock⟩ : ID) := by
        intro a ha he
        refine hn1_notin ?_
        rw [← he]
        exact List.mem_cons_of_mem _ (List.mem_map.mpr ⟨a, ha, rfl⟩)
      have g_itm :
          (((d1.items.insert ⟨d1.client_id, d1.clock⟩
            ⟨⟨d1.client_id, d1.clock⟩, some ⟨d.client_id, d.clock⟩, some itm.id, text,
              false⟩).setRight ⟨d.client_id, d.clock⟩
            (some ⟨d1.client_id, d1.clock⟩)).setLeft itm.id
            (some ⟨d1.client_id, d1.clock⟩)).get? itm.id =
          some { rightSplitOf d itm (pos - (vis L₁).length) with
                   left := some (⟨d1.client_id, d1.clock⟩ : ID) } := by
        have h0 : ((d1.items.insert ⟨d1.client_id, d1.clock⟩
            ⟨⟨d1.client_id, d1.clock⟩, some ⟨d.client_id, d.clock⟩, some itm.id, text,
              false⟩).setRight ⟨d.client_id, d.clock⟩
            (some ⟨d1.client_id, d1.clock⟩)).get? itm.id =
            some (rightSplitOf d itm (pos - (vis L₁).length)) := by
          rw [Store.get?_setRight_ne _ _ hitf, Store.get?_insert_ne _ _ hitmf2]
          exact hgit1
        exact Store.get?_setLeft_self h0 _
      have g_n1 :
          (((d1.items.insert ⟨d1.client_id, d1.clock⟩
            ⟨⟨d1.client_id, d1.clock⟩, some ⟨d.client_id, d.clock⟩, some itm.id, text,
              false⟩).setRight ⟨d.client_id, d.clock⟩
            (some ⟨d1.client_id, d1.clock⟩)).setLeft itm.id
            (some ⟨d1.client_id, d1.clock⟩)).get? ⟨d.client_id, d.clock⟩ =
          some { leftSplitOf d itm (pos - (vis L₁).length) with
                   right := some (⟨d1.client_id, d1.clock⟩ : ID) } := by
        rw [Store.get?_setLeft_ne _ _ (Ne.symm hitf)]
        have h0 : (d1.items.insert ⟨d1.client_id, d1.clock⟩
            ⟨⟨d1.client_id, d1.clock⟩, some ⟨d.client_id, d.clock⟩, some itm.id, text,
              false⟩).get? ⟨d.client_id, d.clock⟩ =
            some (leftSplitOf d itm (pos - (vis L₁).length)) := by
          rw [Store.get?_insert_ne _ _ hn1f]
          exact hgnid1
        exact Store.get?_setRight_self h0 _
      have g_n2 :
          (((d1.items.insert ⟨d1.client_id, d1.clock⟩
            ⟨⟨d1.client_id, d1.clock⟩, some ⟨d.client_id, d.clock⟩, some itm.id, text,
              false⟩).setRight ⟨d.client_id, d.clock⟩
            (some ⟨d1.client_id, d1.clock⟩)).setLeft itm.id
            (some ⟨d1.client_id, d1.clock⟩)).get? ⟨d1.client_id, d1.clock⟩ =
          some ⟨⟨d1.client_id, d1.clock⟩, some ⟨d.client_id, d.clock⟩, some itm.id,
            text, false⟩ := by
        rw [Store.get?_setLeft_ne _ _ (Ne.symm hitmf2),
          Store.get?_setRight_ne _ _ (Ne.symm hn1f), Store.get?_insert_self]
      have g_keep : ∀ (j : ID), j ≠ itm.id → j ≠ ⟨d.client_id, d.clock⟩ →
          j ≠ ⟨d1.client_id, d1.clock⟩ →
          (((d1.items.insert ⟨d1.client_id, d1.clock⟩
            ⟨⟨d1.client_id, d1.clock⟩, some ⟨d.client_id, d.clock⟩, some itm.id, text,
              false⟩).setRight ⟨d.client_id, d.clock⟩
            (some ⟨d1.client_id, d1.clock⟩)).setLeft itm.id
            (some ⟨d1.client_id, d1.clock⟩)).get? j = d1.items.get? j := by
        intro j h1 h2 h3
        rw [Store.get?_setLeft_ne _ _ h1, Store.get?_setRight_ne _ _ h2,
          Store.get?_insert_ne _ _ h3]
      obtain ⟨m1, hCL₁p, hCr1⟩ := ChainSeg_append.mp hC1
      have hm1 : m1 = some (⟨d.client_id, d.clock⟩ : ID) := hCr1.1
      subst hm1
      have hCL₂1 : ChainSeg d1.items
          (rightSplitOf d itm (pos - (vis L₁).length)).right L₂ none := hCr1.2.2.2.2
      obtain ⟨hLL₁p, hLr1⟩ := LeftSeg_append.mp hL1
      have hCnew : ChainSeg
          (((d1.items.insert ⟨d1.client_id, d1.clock⟩
            ⟨⟨d1.client_id, d1.clock⟩, some ⟨d.client_id, d.clock⟩, some itm.id, text,
              false⟩).setRight ⟨d.client_id, d.clock⟩
            (some ⟨d1.client_id, d1.clock⟩)).setLeft itm.id
            (some ⟨d1.client_id, d1.clock⟩)) d1.head
          (L₁p ++
            { leftSplitOf d itm (pos - (vis L₁).length) with
                right := some (⟨d1.client_id, d1.clock⟩ : ID) } ::
            (⟨⟨d1.client_id, d1.clock⟩, some ⟨d.client_id, d.clock⟩, some itm.id, text,
              false⟩ : Item) ::
            { rightSplitOf d itm (pos - (vis L₁).length) with
                left := some (⟨d1.client_id, d1.clock⟩ : ID) } :: L₂) none := by
        refine ChainSeg_append.mpr ⟨some ⟨d.client_id, d.clock⟩, ?_, ?_⟩
        · exact ChainSeg_congr
            (fun a ha => g_keep a.id (hL₁p_ne_itm a ha) (hL₁p_ne_n1 a ha) (hf1' a ha))
            hCL₁p
        · exact ⟨rfl, g_n1, rfl, g_n2, rfl, g_itm,
            ChainSeg_congr (fun a ha =>
              g_keep a.id (hne2 a ha) (hL₂_ne_n1 a ha) (hf2' a ha)) hCL₂1⟩
      have hveq : (d.insert pos text).value =
          vis (L₁p ++
            { leftSplitOf d itm (pos - (vis L₁).length) with
                right := some (⟨d1.client_id, d1.clock⟩ : ID) } ::
            (⟨⟨d1.client_id, d1.clock⟩, some ⟨d.client_id, d.clock⟩, some itm.id, text,
              false⟩ : Item) ::
            { rightSplitOf d itm (pos - (vis L₁).length) with
                left := some (⟨d1.client_id, d1.clock⟩ : ID) } :: L₂) := by
        rw [hres, Doc.value]
        exact valueAux_eq_vis hCnew
          (le_trans (ChainSeg_length_le hCnew) (Nat.le_succ _))
      have hWFnew : (d.insert pos text).WF := by
        rw [hres]
        refine ⟨_, hCnew, ?_, ?_, ?_⟩
        · refine LeftSeg_append.mpr ⟨hLL₁p, ?_⟩
          exact ⟨hLr1.1, rfl, rfl, hLr1.2.2⟩
        · intro i itq hgi hvq
          have hids : ((L₁p ++
              { leftSplitOf d itm (pos - (vis L₁).length) with
                  right := some (⟨d1.client_id, d1.clock⟩ : ID) } ::
              (⟨⟨d1.client_id, d1.clock⟩, some ⟨d.client_id, d.clock⟩, some itm.id, text,
                false⟩ : Item) ::
              { rightSplitOf d itm (pos - (vis L₁).length) with
                  left := some (⟨d1.client_id, d1.clock⟩ : ID) } :: L₂).map Item.id) =
              L₁p.map Item.id ++ (⟨d.client_id, d.clock⟩ : ID) ::
                (⟨d1.client_id, d1.clock⟩ : ID) :: itm.id :: L₂.map Item.id := by
            simp [leftSplitOf, rightSplitOf]
          rw [hids]
          by_cases h1 : i = itm.id
          · subst h1
            exact List.mem_append.mpr (Or.inr (List.mem_cons_of_mem _
              (List.mem_cons_of_mem _ (List.mem_cons_self _ _))))
          · by_cases h2 : i = (⟨d.client_id, d.clock⟩ : ID)
            · subst h2
              exact List.mem_append.mpr (Or.inr (List.mem_cons_self _ _))
            · by_cases h3 : i = (⟨d1.client_id, d1.clock⟩ : ID)
              · subst h3
                exact List.mem_append.mpr (Or.inr
                  (List.mem_cons_of_mem _ (List.mem_cons_self _ _)))
              · rw [g_keep i h1 h2 h3] at hgi
                have := hV1 i itq hgi hvq
                have hids1 : ((L₁p ++ leftSplitOf d itm (pos - (vis L₁).length) ::
                    rightSplitOf d itm (pos - (vis L₁).length) :: L₂).map Item.id) =
                    L₁p.map Item.id ++ (⟨d.client_id, d.clock⟩ : ID) ::
                      itm.id :: L₂.map Item.id := by
                  simp [leftSplitOf, rightSplitOf]
                rw [hids1] at this
                rcases List.mem_append.mp this with hm | hm
                · exact List.mem_append.mpr (Or.inl hm)
                · rcases List.mem_cons.mp hm with he | hm2
                  · exact absurd he h2
                  · rcases List.mem_cons.mp hm2 with he | hm3
                    · exact absurd he h1
                    · exact List.mem_append.mpr (Or.inr (List.mem_cons_of_mem _
                        (List.mem_cons_of_mem _ (List.mem_cons_of_mem _ hm3))))
        · intro q hq hcl
          dsimp only at hcl ⊢
          rcases Store.mem_setLeft hq with ⟨hq1, _⟩ | ⟨ita, _, rfl⟩
          · rcases Store.mem_setRight hq1 with ⟨hq2, _⟩ | ⟨itb, _, rfl⟩
            · rcases Store.mem_insert_iff.mp hq2 with rfl | ⟨hq3, _⟩
              · dsimp only
                omega
              · have := hK1 q hq3 hcl
                omega
            · dsimp only at hcl ⊢
              have := hK1 _ (Store.get?_mem hgnid1) hcl
              dsimp only at this
              omega
          · dsimp only at hcl ⊢
            have := hK1 _ (Store.get?_mem hgit1) hcl
            dsimp only at this
            omega
      have htk : ((vis L₁ ++ (itm.content ++ vis L₂)).take pos) =
          vis L₁ ++ itm.content.take (pos - (vis L₁).length) := by
        conv_lhs => rw [show pos = (vis L₁).length + (pos - (vis L₁).length) from
          by omega]
        rw [take_len_add, take_append_le _ _ (Nat.le_of_lt hofflt)]
      have hdr : ((vis L₁ ++ (itm.content ++ vis L₂)).drop pos) =
          itm.content.drop (pos - (vis L₁).length) ++ vis L₂ := by
        conv_lhs => rw [show pos = (vis L₁).length + (pos - (vis L₁).length) from
          by omega]
        rw [drop_len_add, drop_append_le _ _ (Nat.le_of_lt hofflt)]
      have hval2 : (d.insert pos text).value =
          d.value.take pos ++ text ++ d.value.drop pos := by
        rw [hveq, hval, hvisL, htk, hdr, vis_append, SameShape_vis hshape,
          vis_cons, if_neg (by dsimp only [leftSplitOf]; exact Bool.false_ne_true),
          vis_cons, if_neg (by dsimp only; exact Bool.false_ne_true),
          vis_cons, if_neg (by dsimp only [rightSplitOf]; rw [hdel]; exact
            Bool.false_ne_true)]
        dsimp only [leftSplitOf, rightSplitOf]
        simp [List.append_assoc]
      have hclient : (d.insert pos text).client_id = d.client_id := by
        rw [hres]
        exact hcl1
      exact ⟨hWFnew, hval2, hclient, fun h => absurd h hnotpast⟩
    · -- A2: the insertion point sits exactly at the boundary before `itm`
      have hoffeq : pos - (vis L₁).length = 0 := by omega
      have hposeq : pos = (vis L₁).length := by omega
      have hfp1 : d.find_pos pos = (lastVisFrom none L₁, some itm.id, 0) := by
        rw [hfp0, hoffeq]
      rcases lastVisFrom_split L₁ with hall | ⟨M₁, lv, M₂, hL₁eq, hlv, hM₂, hlast⟩
      · -- A2a: everything before the anchor is tombstoned: no left anchor
        have hfp2 : d.find_pos pos = (none, some itm.id, 0) := by
          rw [hfp1, lastVisFrom_all_deleted hall]
        have hres := insert_eq_none_some htne hfp2
        have g_itm : ((d.items.insert ⟨d.client_id, d.clock⟩
            ⟨⟨d.client_id, d.clock⟩, none, some itm.id, text, false⟩).setLeft itm.id
            (some ⟨d.client_id, d.clock⟩)).get? itm.id =
            some { itm with left := some (⟨d.client_id, d.clock⟩ : ID) } := by
          have h0 : (d.items.insert ⟨d.client_id, d.clock⟩
              ⟨⟨d.client_id, d.clock⟩, none, some itm.id, text, false⟩).get? itm.id =
              some itm := by
            rw [Store.get?_insert_ne _ _ hitf]
            exact hgitm
          exact Store.get?_setLeft_self h0 _
        have g_nid : ((d.items.insert ⟨d.client_id, d.clock⟩
            ⟨⟨d.client_id, d.clock⟩, none, some itm.id, text, false⟩).setLeft itm.id
            (some ⟨d.client_id, d.clock⟩)).get? ⟨d.client_id, d.clock⟩ =
            some ⟨⟨d.client_id, d.clock⟩, none, some itm.id, text, false⟩ := by
          rw [Store.get?_setLeft_ne _ _ (Ne.symm hitf), Store.get?_insert_self]
        have g_keep : ∀ (j : ID), j ≠ itm.id → j ≠ ⟨d.client_id, d.clock⟩ →
            ((d.items.insert ⟨d.client_id, d.clock⟩
              ⟨⟨d.client_id, d.clock⟩, none, some itm.id, text, false⟩).setLeft itm.id
              (some ⟨d.client_id, d.clock⟩)).get? j = d.items.get? j := by
          intro j h1 h2
          rw [Store.get?_setLeft_ne _ _ h1, Store.get?_insert_ne _ _ h2]
        have hCnew : ChainSeg ((d.items.insert ⟨d.client_id, d.clock⟩
            ⟨⟨d.client_id, d.clock⟩, none, some itm.id, text, false⟩).setLeft itm.id
            (some ⟨d.client_id, d.clock⟩)) (some ⟨d.client_id, d.clock⟩)
            ((⟨⟨d.client_id, d.clock⟩, none, some itm.id, text, false⟩ : Item) ::
              { itm with left := some (⟨d.client_id, d.clock⟩ : ID) } :: L₂) none :=
          ⟨rfl, g_nid, rfl, g_itm,
            ChainSeg_congr (fun a ha => g_keep a.id (hne2 a ha) (hf2 a ha)) hCL₂⟩
        have hveq : (d.insert pos text).value =
            vis ((⟨⟨d.client_id, d.clock⟩, none, some itm.id, text, false⟩ : Item) ::
              { itm with left := some (⟨d.client_id, d.clock⟩ : ID) } :: L₂) := by
          rw [hres, Doc.value]
          exact valueAux_eq_vis hCnew
            (le_trans (ChainSeg_length_le hCnew) (Nat.le_succ _))
        have hWFnew : (d.insert pos text).WF := by
          rw [hres]
          refine ⟨_, hCnew, ⟨rfl, rfl, hLtail⟩, ?_, ?_⟩
          · intro i itq hgi hvq
            simp only [List.map_cons]
            by_cases h2 : i = (⟨d.client_id, d.clock⟩ : ID)
            · subst h2
              exact List.mem_cons_self _ _
            · by_cases h1 : i = itm.id
              · subst h1
                exact List.mem_cons_of_mem _ (List.mem_cons_self _ _)
              · rw [g_keep i h1 h2] at hgi
                have := hV i itq hgi hvq
                rw [List.map_append, List.map_cons] at this
                rcases List.mem_append.mp this with hm | hm
                · obtain ⟨a, haL, haid⟩ := List.mem_map.mp hm
                  have hga := ChainSeg_get? hC a (List.mem_append.mpr (Or.inl haL))
                  rw [haid] at hga
                  rw [hga] at hgi
                  injection hgi with he
                  rw [← he, hall a haL] at hvq
                  exact absurd hvq (by simp)
                · rcases List.mem_cons.mp hm with he | hm2
                  · exact absurd he h1
                  · exact List.mem_cons_of_mem _ (List.mem_cons_of_mem _ hm2)
          · intro q hq hcl
            dsimp only at hcl ⊢
            rcases Store.mem_setLeft hq with ⟨hq1, _⟩ | ⟨ita, _, rfl⟩
            · rcases Store.mem_insert_iff.mp hq1 with rfl | ⟨hq2, _⟩
              · dsimp only
                omega
              · have := hK q hq2 hcl
                omega
            · dsimp only at hcl ⊢
              have := hK _ (Store.get?_mem hgitm) hcl
              dsimp only at this
              omega
        have hval2 : (d.insert pos text).value =
            d.value.take pos ++ text ++ d.value.drop pos := by
          have hvisL1 : vis L₁ = [] := vis_all_deleted hall
          have hpos0 : pos = 0 := by rw [hposeq, hvisL1]; rfl
          rw [hveq, hval, hvisL, hvisL1, hpos0]
          rw [vis_cons, if_neg (by dsimp only; exact Bool.false_ne_true),
            vis_cons, if_neg (by dsimp only; rw [hdel]; exact Bool.false_ne_true)]
          simp
        have hclient : (d.insert pos text).client_id = d.client_id := by
          rw [hres]
        exact ⟨hWFnew, hval2, hclient, fun h => absurd h hnotpast⟩
      · -- A2b: `lv` is the last visible item before the anchor
        subst hL₁eq
        have hfp2 : d.find_pos pos = (some lv.id, some itm.id, 0) := by
          rw [hfp1, hlast none]
        have hres := insert_eq_some_some htne hfp2
        have hlvmemL₁ : lv ∈ M₁ ++ lv :: M₂ :=
          List.mem_append.mpr (Or.inr (List.mem_cons_self _ _))
        have hlv_ne_itm : lv.id ≠ itm.id := hne1 lv hlvmemL₁
        have hlv_f : lv.id ≠ (⟨d.client_id, d.clock⟩ : ID) := hf1 lv hlvmemL₁
        obtain ⟨m2, hCM₁, hCr2⟩ := ChainSeg_append.mp hCL₁
        have hm2 : m2 = some lv.id := hCr2.1
        subst hm2
        have hglv : d.items.get? lv.id = some lv := hCr2.2.1
        have hM₁ne : ∀ a ∈ M₁, a.id ≠ lv.id := by
          rw [List.map_append, List.nodup_append] at hnd₁
          intro a ha he
          exact hnd₁.2.2 (List.mem_map.mpr ⟨a, ha, rfl⟩) (by rw [he]; simp)
        have hM₁f : ∀ a ∈ M₁, a.id ≠ (⟨d.client_id, d.clock⟩ : ID) := fun a ha =>
          hf1 a (List.mem_append.mpr (Or.inl ha))
        have hM₁ne_itm : ∀ a ∈ M₁, a.id ≠ itm.id := fun a ha =>
          hne1 a (List.mem_append.mpr (Or.inl ha))
        have hL₂ne_lv : ∀ a ∈ L₂, a.id ≠ lv.id := by
          intro a ha he
          exact hdisj (List.mem_map.mpr ⟨lv, hlvmemL₁, rfl⟩)
            (by rw [← he]
                exact List.mem_cons_of_mem _ (List.mem_map.mpr ⟨a, ha, rfl⟩))
        have g_lv : (((d.items.insert ⟨d.client_id, d.clock⟩
            ⟨⟨d.client_id, d.clock⟩, some lv.id, some itm.id, text, false⟩).setRight
            lv.id (some ⟨d.client_id, d.clock⟩)).setLeft itm.id
            (some ⟨d.client_id, d.clock⟩)).get? lv.id =
            some { lv with right := some (⟨d.client_id, d.clock⟩ : ID) } := by
          rw [Store.get?_setLeft_ne _ _ hlv_ne_itm]
          have h0 : (d.items.insert ⟨d.client_id, d.clock⟩
              ⟨⟨d.client_id, d.clock⟩, some lv.id, some itm.id, text, false⟩).get?
              lv.id = some lv := by
            rw [Store.get?_insert_ne _ _ hlv_f]
            exact hglv
          exact Store.get?_setRight_self h0 _
        have g_itm : (((d.items.insert ⟨d.client_id, d.clock⟩
            ⟨⟨d.client_id, d.clock⟩, some lv.id, some itm.id, text, false⟩).setRight
            lv.id (some ⟨d.client_id, d.clock⟩)).setLeft itm.id
            (some ⟨d.client_id, d.clock⟩)).get? itm.id =
            some { itm with left := some (⟨d.client_id, d.clock⟩ : ID) } := by
          have h0 : ((d.items.insert ⟨d.client_id, d.clock⟩
              ⟨⟨d.client_id, d.clock⟩, some lv.id, some itm.id, text, false⟩).setRight
              lv.id (some ⟨d.client_id, d.clock⟩)).get? itm.id = some itm := by
            rw [Store.get?_setRight_ne _ _ (Ne.symm hlv_ne_itm),
              Store.get?_insert_ne _ _ hitf]
            exact hgitm
          exact Store.get?_setLeft_self h0 _
        have g_nid : (((d.items.insert ⟨d.client_id, d.clock⟩
            ⟨⟨d.client_id, d.clock⟩, some lv.id, some itm.id, text, false⟩).setRight
            lv.id (some ⟨d.client_id, d.clock⟩)).setLeft itm.id
            (some ⟨d.client_id, d.clock⟩)).get? ⟨d.client_id, d.clock⟩ =
            some ⟨⟨d.client_id, d.clock⟩, some lv.id, some itm.id, text, false⟩ := by
          rw [Store.get?_setLeft_ne _ _ (Ne.symm hitf),
            Store.get?_setRight_ne _ _ (Ne.symm hlv_f), Store.get?_insert_self]
        have g_keep : ∀ (j : ID), j ≠ itm.id → j ≠ lv.id → j ≠ ⟨d.client_id, d.clock⟩ →
            (((d.items.insert ⟨d.client_id, d.clock⟩
              ⟨⟨d.client_id, d.clock⟩, some lv.id, some itm.id, text, false⟩).setRight
              lv.id (some ⟨d.client_id, d.clock⟩)).setLeft itm.id
              (some ⟨d.client_id, d.clock⟩)).get? j = d.items.get? j := by
          intro j h1 h2 h3
          rw [Store.get?_setLeft_ne _ _ h1, Store.get?_setRight_ne _ _ h2,
            Store.get?_insert_ne _ _ h3]
        obtain ⟨hLM₁, hLr2⟩ := LeftSeg_append.mp hLL₁
        have hlvleft : lv.left = endOf none M₁ := hLr2.1
        have hCnew : ChainSeg (((d.items.insert ⟨d.client_id, d.clock⟩
            ⟨⟨d.client_id, d.clock⟩, some lv.id, some itm.id, text, false⟩).setRight
            lv.id (some ⟨d.client_id, d.clock⟩)).setLeft itm.id
            (some ⟨d.client_id, d.clock⟩)) d.head
            (M₁ ++ { lv with right := some (⟨d.client_id, d.clock⟩ : ID) } ::
              (⟨⟨d.client_id, d.clock⟩, some lv.id, some itm.id, text, false⟩ : Item) ::
              { itm with left := some (⟨d.client_id, d.clock⟩ : ID) } :: L₂) none := by
          refine ChainSeg_append.mpr ⟨some lv.id, ?_, ?_⟩
          · exact ChainSeg_congr (fun a ha =>
              g_keep a.id (hM₁ne_itm a ha) (hM₁ne a ha) (hM₁f a ha)) hCM₁
          · exact ⟨rfl, g_lv, rfl, g_nid, rfl, g_itm,
              ChainSeg_congr (fun a ha =>
                g_keep a.id (hne2 a ha) (hL₂ne_lv a ha) (hf2 a ha)) hCL₂⟩
        have hveq : (d.insert pos text).value =
            vis (M₁ ++ { lv with right := some (⟨d.client_id, d.clock⟩ : ID) } ::
              (⟨⟨d.client_id, d.clock⟩, some lv.id, some itm.id, text, false⟩ : Item) ::
              { itm with left := some (⟨d.client_id, d.clock⟩ : ID) } :: L₂) := by
          rw [hres, Doc.value]
          exact valueAux_eq_vis hCnew
            (le_trans (ChainSeg_length_le hCnew) (Nat.le_succ _))
        have hWFnew : (d.insert pos text).WF := by
          rw [hres]
          refine ⟨_, hCnew, ?_, ?_, ?_⟩
          · refine LeftSeg_append.mpr ⟨hLM₁, ?_⟩
            exact ⟨hlvleft, rfl, rfl, hLtail⟩
          · intro i itq hgi hvq
            have hids : ((M₁ ++ { lv with right := some (⟨d.client_id, d.clock⟩ : ID) } ::
                (⟨⟨d.client_id, d.clock⟩, some lv.id, some itm.id, text, false⟩ : Item) ::
                { itm with left := some (⟨d.client_id, d.clock⟩ : ID) } :: L₂).map
                Item.id) = M₁.map Item.id ++ lv.id :: (⟨d.client_id, d.clock⟩ : ID) ::
                itm.id :: L₂.map Item.id := by
              simp
            rw [hids]
            by_cases h1 : i = itm.id
            · subst h1
              exact List.mem_append.mpr (Or.inr (List.mem_cons_of_mem _
                (List.mem_cons_of_mem _ (List.mem_cons_self _ _))))
            · by_cases h2 : i = lv.id
              · subst h2
                exact List.mem_append.mpr (Or.inr (List.mem_cons_self _ _))
              · by_cases h3 : i = (⟨d.client_id, d.clock⟩ : ID)
                · subst h3
                  exact List.mem_append.mpr (Or.inr
                    (List.mem_cons_of_mem _ (List.mem_cons_self _ _)))
                · rw [g_keep i h1 h2 h3] at hgi
                  have := hV i itq hgi hvq
                  rw [List.map_append, List.map_append, List.map_cons,
                    List.map_cons] at this
                  rcases List.mem_append.mp this with hm | hm
                  · rcases List.mem_append.mp hm with hma | hmb
                    · exact List.mem_append.mpr (Or.inl hma)
                    · rcases List.mem_cons.mp hmb with he | hm2
                      · exact absurd he h2
                      · -- key of a tombstoned item of `M₂`
                        obtain ⟨a, haM₂, haid⟩ := List.mem_map.mp hm2
                        have hga := ChainSeg_get? hC a (List.mem_append.mpr (Or.inl
                          (List.mem_append.mpr (Or.inr (List.mem_cons_of_mem _ haM₂)))))
                        rw [haid] at hga
                        rw [hga] at hgi
                        injection hgi with he
                        rw [← he, hM₂ a haM₂] at hvq
                        exact absurd hvq (by simp)
                  · rcases List.mem_cons.mp hm with he | hm2
                    · exact absurd he h1
                    · exact List.mem_append.mpr (Or.inr (List.mem_cons_of_mem _
                        (List.mem_cons_of_mem _ (List.mem_cons_of_mem _ hm2))))
          · intro q hq hcl
            dsimp only at hcl ⊢
            rcases Store.mem_setLeft hq with ⟨hq1, _⟩ | ⟨ita, _, rfl⟩
            · rcases Store.mem_setRight hq1 with ⟨hq2, _⟩ | ⟨itb, _, rfl⟩
              · rcases Store.mem_insert_iff.mp hq2 with rfl | ⟨hq3, _⟩
                · dsimp only
                  omega
                · have := hK q hq3 hcl
                  omega
              · dsimp only at hcl ⊢
                have := hK _ (Store.get?_mem hglv) hcl
                dsimp only at this
                omega
            · dsimp only at hcl ⊢
              have := hK _ (Store.get?_mem hgitm) hcl
              dsimp only at this
              omega
        have hval2 : (d.insert pos text).value =
            d.value.take pos ++ text ++ d.value.drop pos := by
          have hvL₁ : vis (M₁ ++ lv :: M₂) = vis M₁ ++ lv.content := by
            rw [vis_append, vis_cons, if_neg (by rw [hlv]; exact Bool.false_ne_true),
              vis_all_deleted hM₂]
            simp
          have hvnew : vis (M₁ ++ { lv with right := some (⟨d.client_id, d.clock⟩ :
              ID) } ::
              (⟨⟨d.client_id, d.clock⟩, some lv.id, some itm.id, text, false⟩ : Item) ::
              { itm with left := some (⟨d.client_id, d.clock⟩ : ID) } :: L₂) =
              vis M₁ ++ (lv.content ++ (text ++ (itm.content ++ vis L₂))) := by
            rw [vis_append, vis_cons,
              if_neg (by dsimp only; rw [hlv]; exact Bool.false_ne_true),
              vis_cons, if_neg (by dsimp only; exact Bool.false_ne_true),
              vis_cons, if_neg (by dsimp only; rw [hdel]; exact Bool.false_ne_true)]
          rw [hveq, hval, hvisL, hposeq, List.take_left, List.drop_left, hvnew, hvL₁]
          simp [List.append_assoc]
        have hclient : (d.insert pos text).client_id = d.client_id := by
          rw [hres]
        exact ⟨hWFnew, hval2, hclient, fun h => absurd h hnotpast⟩
  · -- B: the position is at or past the end of the visible text
    have hfpP : fpList L none 0 pos = (lastVisFrom none L, none, 0) :=
      fpList_past_end (by omega)
    have hpast : (vis L).length ≤ pos := hpos
    rcases lastVisFrom_split L with hall | ⟨M₁, lv, M₂, hLeq, hlv, hM₂, hlast⟩
    · -- B1: the whole chain is tombstoned (or empty)
      have hfp2 : d.find_pos pos = (none, none, 0) := by
        rw [hfp0, hfpP, lastVisFrom_all_deleted hall]
      have hres := insert_eq_none_none htne hfp2
      have g_nid : (d.items.insert ⟨d.client_id, d.clock⟩
          ⟨⟨d.client_id, d.clock⟩, none, none, text, false⟩).get?
          ⟨d.client_id, d.clock⟩ =
          some ⟨⟨d.client_id, d.clock⟩, none, none, text, false⟩ :=
        Store.get?_insert_self _ _ _
      have hCnew : ChainSeg (d.items.insert ⟨d.client_id, d.clock⟩
          ⟨⟨d.client_id, d.clock⟩, none, none, text, false⟩)
          (some ⟨d.client_id, d.clock⟩)
          [⟨⟨d.client_id, d.clock⟩, none, none, text, false⟩] none :=
        ⟨rfl, g_nid, rfl⟩
      have hveq : (d.insert pos text).value =
          vis [(⟨⟨d.client_id, d.clock⟩, none, none, text, false⟩ : Item)] := by
        rw [hres, Doc.value]
        exact valueAux_eq_vis hCnew
          (le_trans (ChainSeg_length_le hCnew) (Nat.le_succ _))
      have hWFnew : (d.insert pos text).WF := by
        rw [hres]
        refine ⟨_, hCnew, ⟨rfl, trivial⟩, ?_, ?_⟩
        · intro i itq hgi hvq
          simp only [List.map_cons, List.map_nil]
          by_cases h1 : i = (⟨d.client_id, d.clock⟩ : ID)
          · subst h1
            exact List.mem_cons_self _ _
          · rw [Store.get?_insert_ne _ _ h1] at hgi
            have := hV i itq hgi hvq
            obtain ⟨a, haL, haid⟩ := List.mem_map.mp this
            have hga := ChainSeg_get? hC a haL
            rw [haid] at hga
            rw [hga] at hgi
            injection hgi with he
            rw [← he, hall a haL] at hvq
            exact absurd hvq (by simp)
        · intro q hq hcl
          dsimp only at hcl ⊢
          rcases Store.mem_insert_iff.mp hq with rfl | ⟨hq2, _⟩
          · dsimp only
            omega
          · have := hK q hq2 hcl
            omega
      have hval2 : (d.insert pos text).value =
          d.value.take pos ++ text ++ d.value.drop pos := by
        rw [hveq, hval, vis_all_deleted hall]
        rw [vis_cons, if_neg (by dsimp only; exact Bool.false_ne_true)]
        simp
      have hclient : (d.insert pos text).client_id = d.client_id := by
        rw [hres]
      have himp : (d.insert pos text).items.get? ⟨d.client_id, d.clock⟩ =
          some ⟨⟨d.client_id, d.clock⟩, d.lastVisible, none, text, false⟩ := by
        rw [hres, hlvis, lastVisFrom_all_deleted hall]
        exact g_nid
      exact ⟨hWFnew, hval2, hclient, fun _ => himp⟩
    · -- B2: `lv` is the last visible item of the chain
      subst hLeq
      have hfp2 : d.find_pos pos = (some lv.id, none, 0) := by
        rw [hfp0, hfpP, hlast none]
      have hres := insert_eq_some_none htne hfp2
      have hnd := ChainSeg_nodup hC
      rw [List.map_append, List.map_cons, List.nodup_append] at hnd
      obtain ⟨hndM₁, hndlv, hdisj⟩ := hnd
      have hfresh := chain_fresh hC hK
      have hlv_f : lv.id ≠ (⟨d.client_id, d.clock⟩ : ID) :=
        hfresh lv (List.mem_append.mpr (Or.inr (List.mem_cons_self _ _)))
      have hM₁ne : ∀ a ∈ M₁, a.id ≠ lv.id := by
        intro a ha he
        exact hdisj (List.mem_map.mpr ⟨a, ha, rfl⟩) (by rw [he]; simp)
      have hM₁f : ∀ a ∈ M₁, a.id ≠ (⟨d.client_id, d.clock⟩ : ID) := fun a ha =>
        hfresh a (List.mem_append.mpr (Or.inl ha))
      obtain ⟨m, hCM₁, hCr⟩ := ChainSeg_append.mp hC
      have hm : m = some lv.id := hCr.1
      subst hm
      have hglv : d.items.get? lv.id = some lv := hCr.2.1
      obtain ⟨hLM₁, hLr⟩ := LeftSeg_append.mp hL
      have hlvleft : lv.left = endOf none M₁ := hLr.1
      have g_lv : ((d.items.insert ⟨d.client_id, d.clock⟩
          ⟨⟨d.client_id, d.clock⟩, some lv.id, none, text, false⟩).setRight lv.id
          (some ⟨d.client_id, d.clock⟩)).get? lv.id =
          some { lv with right := some (⟨d.client_id, d.clock⟩ : ID) } := by
        have h0 : (d.items.insert ⟨d.client_id, d.clock⟩
            ⟨⟨d.client_id, d.clock⟩, some lv.id, none, text, false⟩).get? lv.id =
            some lv := by
          rw [Store.get?_insert_ne _ _ hlv_f]
          exact hglv
        exact Store.get?_setRight_self h0 _
      have g_nid : ((d.items.insert ⟨d.client_id, d.clock⟩
          ⟨⟨d.client_id, d.clock⟩, some lv.id, none, text, false⟩).setRight lv.id
          (some ⟨d.client_id, d.clock⟩)).get? ⟨d.client_id, d.clock⟩ =
          some ⟨⟨d.client_id, d.clock⟩, some lv.id, none, text, false⟩ := by
        rw [Store.get?_setRight_ne _ _ (Ne.symm hlv_f), Store.get?_insert_self]
      have g_keep : ∀ (j : ID), j ≠ lv.id → j ≠ ⟨d.client_id, d.clock⟩ →
          ((d.items.insert ⟨d.client_id, d.clock⟩
            ⟨⟨d.client_id, d.clock⟩, some lv.id, none, text, false⟩).setRight lv.id
            (some ⟨d.client_id, d.clock⟩)).get? j = d.items.get? j := by
        intro j h1 h2
        rw [Store.get?_setRight_ne _ _ h1, Store.get?_insert_ne _ _ h2]
      have hCnew : ChainSeg ((d.items.insert ⟨d.client_id, d.clock⟩
          ⟨⟨d.client_id, d.clock⟩, some lv.id, none, text, false⟩).setRight lv.id
          (some ⟨d.client_id, d.clock⟩)) d.head
          (M₁ ++ { lv with right := some (⟨d.client_id, d.clock⟩ : ID) } ::
            [⟨⟨d.client_id, d.clock⟩, some lv.id, none, text, false⟩]) none := by
        refine ChainSeg_append.mpr ⟨some lv.id, ?_, ?_⟩
        · exact ChainSeg_congr (fun a ha =>
            g_keep a.id (hM₁ne a ha) (hM₁f a ha)) hCM₁
        · exact ⟨rfl, g_lv, rfl, g_nid, rfl⟩
      have hveq : (d.insert pos text).value =
          vis (M₁ ++ { lv with right := some (⟨d.client_id, d.clock⟩ : ID) } ::
            [⟨⟨d.client_id, d.clock⟩, some lv.id, none, text, false⟩]) := by
        rw [hres, Doc.value]
        exact valueAux_eq_vis hCnew
          (le_trans (ChainSeg_length_le hCnew) (Nat.le_succ _))
      have hWFnew : (d.insert pos text).WF := by
        rw [hres]
        refine ⟨_, hCnew, ?_, ?_, ?_⟩
        · refine LeftSeg_append.mpr ⟨hLM₁, ?_⟩
          exact ⟨hlvleft, rfl, trivial⟩
        · intro i itq hgi hvq
          have hids : ((M₁ ++ { lv with right := some (⟨d.client_id, d.clock⟩ : ID) } ::
              [⟨⟨d.client_id, d.clock⟩, some lv.id, none, text, false⟩]).map Item.id) =
              M₁.map Item.id ++ lv.id :: [(⟨d.client_id, d.clock⟩ : ID)] := by
            simp
          rw [hids]
          by_cases h1 : i = lv.id
          · subst h1
            exact List.mem_append.mpr (Or.inr (List.mem_cons_self _ _))
          · by_cases h2 : i = (⟨d.client_id, d.clock⟩ : ID)
            · subst h2
              exact List.mem_append.mpr (Or.inr
                (List.mem_cons_of_mem _ (List.mem_cons_self _ _)))
            · rw [g_keep i h1 h2] at hgi
              have := hV i itq hgi hvq
              rw [List.map_append, List.map_cons] at this
              rcases List.mem_append.mp this with hm | hm
              · exact List.mem_append.mpr (Or.inl hm)
              · rcases List.mem_cons.mp hm with he | hm2
                · exact absurd he h1
                · -- key of a tombstoned item of `M₂`
                  obtain ⟨a, haM₂, haid⟩ := List.mem_map.mp hm2
                  have hga := ChainSeg_get? hC a (List.mem_append.mpr (Or.inr
                    (List.mem_cons_of_mem _ haM₂)))
                  rw [haid] at hga
                  rw [hga] at hgi
                  injection hgi with he
                  rw [← he, hM₂ a haM₂] at hvq
                  exact absurd hvq (by simp)
        · intro q hq hcl
          dsimp only at hcl ⊢
          rcases Store.mem_setRight hq with ⟨hq1, _⟩ | ⟨ita, _, rfl⟩
          · rcases Store.mem_insert_iff.mp hq1 with rfl | ⟨hq2, _⟩
            · dsimp only
              omega
            · have := hK q hq2 hcl
              omega
          · dsimp only at hcl ⊢
            have := hK _ (Store.get?_mem hglv) hcl
            dsimp only at this
            omega
      have hval2 : (d.insert pos text).value =
          d.value.take pos ++ text ++ d.value.drop pos := by
        have hvL : vis (M₁ ++ lv :: M₂) = vis M₁ ++ lv.content := by
          rw [vis_append, vis_cons, if_neg (by rw [hlv]; exact Bool.false_ne_true),
            vis_all_deleted hM₂]
          simp
        have hvnew : vis (M₁ ++ { lv with right := some (⟨d.client_id, d.clock⟩ :
            ID) } :: [⟨⟨d.client_id, d.clock⟩, some lv.id, none, text, false⟩]) =
            vis M₁ ++ (lv.content ++ text) := by
          rw [vis_append, vis_cons,
            if_neg (by dsimp only; rw [hlv]; exact Bool.false_ne_true),
            vis_cons, if_neg (by dsimp only; exact Bool.false_ne_true)]
          simp
        rw [hveq, hval, take_of_len_le hpast, drop_of_len_le hpast, hvnew, hvL]
        simp [List.append_assoc]
      have hclient : (d.insert pos text).client_id = d.client_id := by
        rw [hres]
      have himp : (d.insert pos text).items.get? ⟨d.client_id, d.clock⟩ =
          some ⟨⟨d.client_id, d.clock⟩, d.lastVisible, none, text, false⟩ := by
        rw [hres, hlvis, hlast none]
        exact g_nid
      exact ⟨hWFnew, hval2, hclient, fun _ => himp⟩

/-! ## Delete: surgery lemmas and loop specification -/

theorem allTxt_eq_flatten (L : List Item) : (L.map Item.content).flatten = allTxt L := by
  induction L with
  | nil => rfl
  | cons it L ih => simp [allTxt_cons, ih]

/-- `Doc.allText` agrees with `allTxt` over the chain. -/
theorem allText_eq {d : Doc} {L : List Item} (hC : ChainSeg d.items d.head L none) :
    d.allText = allTxt L := by
  rw [Doc.allText, chainItems_eq hC, allTxt_eq_flatten]

theorem drop_add_split (c X : List Char) {off len : Nat} (h : off ≤ c.length) :
    (c ++ X).drop (off + len) = (c.drop off ++ X).drop len := by
  conv_lhs => rw [← List.take_append_drop off c]
  rw [List.append_assoc]
  have hl : (c.take off).length = off := by rw [List.length_take]; omega
  rw [show off + len = (c.take off).length + len from by rw [hl]]
  rw [drop_len_add]

/-- Marking a chain item deleted preserves chain, back links, coverage and the
clock bound. -/
theorem setDeleted_chain_spec {d : Doc} {L₁ L₂ : List Item} {it : Item}
    (hC : ChainSeg d.items d.head (L₁ ++ it :: L₂) none)
    (hL : LeftSeg none (L₁ ++ it :: L₂))
    (hV : visCov d.items (L₁ ++ it :: L₂))
    (hK : clockOk d) :
    ChainSeg (d.items.setDeleted it.id) d.head
      (L₁ ++ { it with is_deleted := true } :: L₂) none ∧
    LeftSeg none (L₁ ++ { it with is_deleted := true } :: L₂) ∧
    visCov (d.items.setDeleted it.id) (L₁ ++ { it with is_deleted := true } :: L₂) ∧
    clockOk { d with items := d.items.setDeleted it.id } := by
  obtain ⟨m, hC₁, hC₂⟩ := ChainSeg_append.mp hC
  have hm : m = some it.id := hC₂.1
  subst hm
  have hget : d.items.get? it.id = some it := hC₂.2.1
  have hCL₂ : ChainSeg d.items it.right L₂ none := hC₂.2.2
  have hnd := ChainSeg_nodup hC
  rw [List.map_append, List.map_cons, List.nodup_append] at hnd
  obtain ⟨hnd₁, hnd₂, hdisj⟩ := hnd
  have hne1 : ∀ a ∈ L₁, a.id ≠ it.id := by
    intro a ha he
    exact hdisj (List.mem_map.mpr ⟨a, ha, rfl⟩) (by rw [he]; exact List.mem_cons_self _ _)
  have hne2 : ∀ a ∈ L₂, a.id ≠ it.id := by
    intro a ha he
    exact (List.nodup_cons.mp hnd₂).1 (by rw [← he]; exact List.mem_map.mpr ⟨a, ha, rfl⟩)
  have g_it : (d.items.setDeleted it.id).get? it.id =
      some { it with is_deleted := true } := Store.get?_setDeleted_self hget
  obtain ⟨hLL₁, hLr⟩ := LeftSeg_append.mp hL
  refine ⟨?_, ?_, ?_, ?_⟩
  · refine ChainSeg_append.mpr ⟨some it.id, ?_, ?_⟩
    · exact ChainSeg_congr
        (fun a ha => Store.get?_setDeleted_ne _ (hne1 a ha)) hC₁
    · exact ⟨rfl, g_it, ChainSeg_congr
        (fun a ha => Store.get?_setDeleted_ne _ (hne2 a ha)) hCL₂⟩
  · exact LeftSeg_append.mpr ⟨hLL₁, hLr.1, hLr.2⟩
  · intro i itq hgi hvq
    have hids : ((L₁ ++ { it with is_deleted := true } :: L₂).map Item.id) =
        (L₁ ++ it :: L₂).map Item.id := by simp
    rw [hids]
    by_cases h1 : i = it.id
    · subst h1
      simp
    · rw [Store.get?_setDeleted_ne _ h1] at hgi
      exact hV i itq hgi hvq
  · intro q hq hcl
    dsimp only at hcl ⊢
    rcases Store.mem_setDeleted hq with ⟨hq1, _⟩ | ⟨ita, _, rfl⟩
    · exact hK q hq1 hcl
    · dsimp only at hcl ⊢
      have := hK _ (Store.get?_mem hget) hcl
      dsimp only at this
      omega

/-- Specification of the `delete` walk: it removes exactly `rem` visible
characters starting at the current item, preserves every well-formedness
component and never changes the concatenated content of the chain. -/
theorem deleteLoop_spec :
    ∀ (suf : List Item) (fuel : Nat) (d : Doc) (pre : List Item) (cur : Item)
      (rem : Nat),
      ChainSeg d.items d.head (pre ++ cur :: suf) none →
      LeftSeg none (pre ++ cur :: suf) →
      visCov d.items (pre ++ cur :: suf) →
      clockOk d →
      suf.length < fuel →
      ∃ L' : List Item,
        ChainSeg (deleteLoop fuel d cur.id rem).items
          (deleteLoop fuel d cur.id rem).head L' none ∧
        LeftSeg none L' ∧
        visCov (deleteLoop fuel d cur.id rem).items L' ∧
        clockOk (deleteLoop fuel d cur.id rem) ∧
        vis L' = vis pre ++ (vis (cur :: suf)).drop rem ∧
        allTxt L' = allTxt (pre ++ cur :: suf) ∧
        (deleteLoop fuel d cur.id rem).client_id = d.client_id := by
  intro suf
  induction suf with
  | nil =>
    intro fuel d pre cur rem hC hL hV hK hfuel
    cases fuel with
    | zero => omega
    | succ f =>
      rcases Nat.eq_zero_or_pos rem with hrem | hrem
      · subst hrem
        have hdl : deleteLoop (f + 1) d cur.id 0 = d := by simp [deleteLoop]
        rw [hdl]
        exact ⟨pre ++ cur :: [], hC, hL, hV, hK, by rw [vis_append, List.drop_zero],
          rfl, rfl⟩
      · obtain ⟨m, hC₁, hC₂⟩ := ChainSeg_append.mp hC
        have hget : d.items.get? cur.id = some cur := hC₂.2.1
        have hright : cur.right = none := hC₂.2.2
        by_cases hdel : cur.is_deleted = true
        · have hdl : deleteLoop (f + 1) d cur.id rem = d := by
            simp only [deleteLoop]
            rw [if_neg (by omega), hget]
            simp only [hdel, if_pos, hright]
          rw [hdl]
          refine ⟨pre ++ cur :: [], hC, hL, hV, hK, ?_, rfl, rfl⟩
          rw [vis_append, vis_cons_of_deleted hdel]
          simp
        · have hdelF : cur.is_deleted = false := by
            cases hcd : cur.is_deleted with
            | false => rfl
            | true => exact absurd hcd hdel
          rcases Nat.lt_or_ge rem cur.content.length with hlen | hlen
          · -- partial deletion of the single item: split, mark left part
            obtain ⟨L₁p, d2, hsplit, hshape, hcl2, hck2, hpd2, hC2, hL2, hV2, hK2,
              hgit2, hgnid2⟩ :=
              split_item_spec hC hL hV hK hrem hlen
            have hdl : deleteLoop (f + 1) d cur.id rem =
                { d2 with items := d2.items.setDeleted ⟨d.client_id, d.clock⟩ } := by
              simp only [deleteLoop]
              rw [if_neg (by omega), hget]
              simp only [hdel, Bool.false_eq_true, if_false, if_pos hlen, hsplit]
            rw [hdl]
            have hspec := setDeleted_chain_spec hC2 hL2 hV2 hK2
            have hflagL : ({ leftSplitOf d cur rem with is_deleted := true } :
                Item).is_deleted = true := rfl
            have hflagR : (rightSplitOf d cur rem).is_deleted = false := hdelF
            refine ⟨L₁p ++ { leftSplitOf d cur rem with is_deleted := true } ::
              rightSplitOf d cur rem :: [], hspec.1, hspec.2.1, hspec.2.2.1,
              hspec.2.2.2, ?_, ?_, hcl2⟩
            · rw [vis_append, SameShape_vis hshape, vis_cons_of_deleted hflagL,
                vis_cons_of_visible hflagR, vis_cons_of_visible hdelF]
              dsimp only [rightSplitOf]
              rw [drop_append_le _ _ (Nat.le_of_lt hlen)]
            · rw [allTxt_append, allTxt_append, SameShape_allTxt hshape]
              dsimp only [leftSplitOf, rightSplitOf]
              simp only [allTxt_cons]
              rw [← List.append_assoc (cur.content.take rem) (cur.content.drop rem),
                List.take_append_drop]
          · -- full deletion of the single item, then end of list
            have hdl : deleteLoop (f + 1) d cur.id rem =
                { d with items := d.items.setDeleted cur.id } := by
              simp only [deleteLoop]
              rw [if_neg (by omega), hget]
              simp only [hdel, Bool.false_eq_true, if_false, if_neg (by omega : ¬(rem <
                cur.content.length)), hright]
            rw [hdl]
            have hspec := setDeleted_chain_spec hC hL hV hK
            have hflagC : ({ cur with is_deleted := true } : Item).is_deleted =
                true := rfl
            refine ⟨pre ++ { cur with is_deleted := true } :: [],
              hspec.1, hspec.2.1, hspec.2.2.1, hspec.2.2.2, ?_, ?_, rfl⟩
            · rw [vis_append, vis_cons_of_deleted hflagC, vis_cons_of_visible hdelF]
              rw [drop_of_len_le (l := cur.content ++ vis []) (by simpa using hlen)]
              rfl
            · rw [allTxt_append, allTxt_append]
              rfl
  | cons nx suf ih =>
    intro fuel d pre cur rem hC hL hV hK hfuel
    cases fuel with
    | zero => omega
    | succ f =>
      rcases Nat.eq_zero_or_pos rem with hrem | hrem
      · subst hrem
        have hdl : deleteLoop (f + 1) d cur.id 0 = d := by simp [deleteLoop]
        rw [hdl]
        exact ⟨pre ++ cur :: nx :: suf, hC, hL, hV, hK,
          by rw [vis_append, List.drop_zero], rfl, rfl⟩
      · obtain ⟨m, hC₁, hC₂⟩ := ChainSeg_append.mp hC
        have hget : d.items.get? cur.id = some cur := hC₂.2.1
        have hright : cur.right = some nx.id := hC₂.2.2.1
        by_cases hdel : cur.is_deleted = true
        · -- skip an already-deleted item
          have hdl : deleteLoop (f + 1) d cur.id rem = deleteLoop f d nx.id rem := by
            simp only [deleteLoop]
            rw [if_neg (by omega), hget]
            simp only [hdel, if_pos, hright]
          rw [hdl]
          have hC' : ChainSeg d.items d.head ((pre ++ [cur]) ++ nx :: suf) none := by
            rw [List.append_assoc]
            exact hC
          have hL' : LeftSeg none ((pre ++ [cur]) ++ nx :: suf) := by
            rw [List.append_assoc]
            exact hL
          have hV' : visCov d.items ((pre ++ [cur]) ++ nx :: suf) := by
            intro i itq hgi hvq
            rw [List.append_assoc]
            exact hV i itq hgi hvq
          obtain ⟨L', h1, h2, h3, h4, h5, h6, h7⟩ :=
            ih f d (pre ++ [cur]) nx rem hC' hL' hV' hK (by simp at hfuel ⊢; omega)
          refine ⟨L', h1, h2, h3, h4, ?_, ?_, h7⟩
          · rw [h5, vis_append, vis_cons_of_deleted hdel, vis_cons_of_deleted hdel]
            simp
          · rw [h6]
            simp [allTxt_append, allTxt_cons]
        · have hdelF : cur.is_deleted = false := by
            cases hcd : cur.is_deleted with
            | false => rfl
            | true => exact absurd hcd hdel
          rcases Nat.lt_or_ge rem cur.content.length with hlen | hlen
          · -- partial deletion: split `cur`, mark the left part, stop
            obtain ⟨L₁p, d2, hsplit, hshape, hcl2, hck2, hpd2, hC2, hL2, hV2, hK2,
              hgit2, hgnid2⟩ :=
              split_item_spec hC hL hV hK hrem hlen
            have hdl : deleteLoop (f + 1) d cur.id rem =
                { d2 with items := d2.items.setDeleted ⟨d.client_id, d.clock⟩ } := by
              simp only [deleteLoop]
              rw [if_neg (by omega), hget]
              simp only [hdel, Bool.false_eq_true, if_false, if_pos hlen, hsplit]
            rw [hdl]
            have hspec := setDeleted_chain_spec hC2 hL2 hV2 hK2
            have hflagL : ({ leftSplitOf d cur rem with is_deleted := true } :
                Item).is_deleted = true := rfl
            have hflagR : (rightSplitOf d cur rem).is_deleted = false := hdelF
            refine ⟨L₁p ++ { leftSplitOf d cur rem with is_deleted := true } ::
              rightSplitOf d cur rem :: nx :: suf, hspec.1, hspec.2.1, hspec.2.2.1,
              hspec.2.2.2, ?_, ?_, hcl2⟩
            · rw [vis_append, SameShape_vis hshape, vis_cons_of_deleted hflagL,
                vis_cons_of_visible hflagR, vis_cons_of_visible hdelF]
              dsimp only [rightSplitOf]
              rw [drop_append_le _ _ (Nat.le_of_lt hlen)]
            · rw [allTxt_append, allTxt_append, SameShape_allTxt hshape]
              dsimp only [leftSplitOf, rightSplitOf]
              simp only [allTxt_cons]
              rw [← List.append_assoc (cur.content.take rem) (cur.content.drop rem),
                List.take_append_drop]
          · -- full deletion of `cur`, then continue with the rest
            have hdl : deleteLoop (f + 1) d cur.id rem =
                deleteLoop f { d with items := d.items.setDeleted cur.id } nx.id
                  (rem - cur.content.length) := by
              simp only [deleteLoop]
              rw [if_neg (by omega), hget]
              simp only [hdel, Bool.false_eq_true, if_false, if_neg (by omega : ¬(rem <
                cur.content.length)), hright]
            rw [hdl]
            have hspec := setDeleted_chain_spec hC hL hV hK
            have hflagC : ({ cur with is_deleted := true } : Item).is_deleted =
                true := rfl
            have hC' : ChainSeg ({ d with items := d.items.setDeleted cur.id }).items
                ({ d with items := d.items.setDeleted cur.id }).head
                ((pre ++ [{ cur with is_deleted := true }]) ++ nx :: suf) none := by
              rw [List.append_assoc]
              exact hspec.1
            have hL' : LeftSeg none
                ((pre ++ [{ cur with is_deleted := true }]) ++ nx :: suf) := by
              rw [List.append_assoc]
              exact hspec.2.1
            have hV' : visCov ({ d with items := d.items.setDeleted cur.id }).items
                ((pre ++ [{ cur with is_deleted := true }]) ++ nx :: suf) := by
              intro i itq hgi hvq
              rw [List.append_assoc]
              exact hspec.2.2.1 i itq hgi hvq
            obtain ⟨L', h1, h2, h3, h4, h5, h6, h7⟩ :=
              ih f { d with items := d.items.setDeleted cur.id }
                (pre ++ [{ cur with is_deleted := true }]) nx
                (rem - cur.content.length) hC' hL' hV' hspec.2.2.2
                (by simp at hfuel ⊢; omega)
            refine ⟨L', h1, h2, h3, h4, ?_, ?_, h7⟩
            · rw [h5, vis_append, vis_cons_of_deleted hflagC,
                vis_cons_of_visible hdelF]
              have hdd : (cur.content ++ vis (nx :: suf)).drop rem =
                  (vis (nx :: suf)).drop (rem - cur.content.length) := by
                conv_lhs => rw [show rem = cur.content.length +
                  (rem - cur.content.length) from by omega]
                rw [drop_len_add]
              rw [hdd]
              simp
            · rw [h6]
              simp [allTxt_append, allTxt_cons]

/-! ## Unfolding lemmas for `Doc.delete` -/

theorem delete_eq_zero {d : Doc} {pos : Nat} : d.delete pos 0 = d := by
  simp [Doc.delete]

theorem delete_eq_none {d : Doc} {pos len : Nat} {l0 : Option ID}
    (hlen : len ≠ 0) (hfp : d.find_pos pos = (l0, none, 0)) :
    d.delete pos len = d := by
  unfold Doc.delete
  rw [if_neg hlen, hfp]

theorem delete_eq_found_zero {d : Doc} {pos len : Nat} {l0 : Option ID} {cid : ID}
    (hlen : len ≠ 0) (hfp : d.find_pos pos = (l0, some cid, 0)) :
    d.delete pos len = deleteLoop (d.items.length + 1) d cid len := by
  unfold Doc.delete
  rw [if_neg hlen, hfp]
  dsimp only
  rw [if_neg (by omega : ¬(0 : Nat) < 0)]

theorem delete_eq_found_split {d d2 : Doc} {pos len off : Nat} {l0 : Option ID}
    {cid nid : ID} (hlen : len ≠ 0) (hfp : d.find_pos pos = (l0, some cid, off))
    (hoff : 0 < off) (hsplit : d.split_item cid off = (nid, d2)) :
    d.delete pos len = deleteLoop (d2.items.length + 1) d2 cid len := by
  unfold Doc.delete
  rw [if_neg hlen, hfp]
  dsimp only
  rw [if_pos hoff, hsplit]

/-- Grand specification of local `delete` on well-formed documents: the result
is well formed, its visible text is the old text with the slice
`[pos, pos + len)` removed (tolerantly truncated at the end), the concatenated
content of all items, tombstoned or not, is unchanged (deletion only marks
`is_deleted`), and the client id is unchanged. -/
theorem delete_spec {d : Doc} (hWF : d.WF) (pos len : Nat) :
    (d.delete pos len).WF ∧
    (d.delete pos len).value = d.value.take pos ++ d.value.drop (pos + len) ∧
    (d.delete pos len).allText = d.allText ∧
    (d.delete pos len).client_id = d.client_id := by
  obtain ⟨L, hC, hL, hV, hK⟩ := hWF
  have hval : d.value = vis L := value_eq_vis hC
  have htxt : d.allText = allTxt L := allText_eq hC
  rcases Nat.eq_zero_or_pos len with hlen0 | hlen0
  · subst hlen0
    rw [delete_eq_zero]
    refine ⟨⟨L, hC, hL, hV, hK⟩, ?_, rfl, rfl⟩
    rw [Nat.add_zero, List.take_append_drop]
  · have hlen : len ≠ 0 := by omega
    have hfp0 := find_pos_eq hC pos
    rcases Nat.lt_or_ge pos (vis L).length with hpos | hpos
    · -- the position is inside the visible text
      obtain ⟨L₁, itm, L₂, rfl, hdel, hge, hlt, hfpL⟩ :=
        @fpList_found L none 0 pos (by omega) (Nat.zero_le _)
      rw [hfpL] at hfp0
      simp only [Nat.zero_add] at hfp0 hge hlt
      have hvL : vis (L₁ ++ itm :: L₂) = vis L₁ ++ (itm.content ++ vis L₂) := by
        rw [vis_append, vis_cons_of_visible hdel]
      rcases Nat.eq_zero_or_pos (pos - (vis L₁).length) with hoff0 | hoffpos
      · -- offset zero: delete starts exactly at `itm`
        rw [hoff0] at hfp0
        have hdeq := delete_eq_found_zero hlen hfp0
        have hfuel : L₂.length < d.items.length + 1 := by
          have h1 := ChainSeg_length_le hC
          simp only [List.length_append, List.length_cons] at h1
          omega
        obtain ⟨L', h1, h2, h3, h4, h5, h6, h7⟩ :=
          deleteLoop_spec L₂ (d.items.length + 1) d L₁ itm len hC hL hV hK hfuel
        have hpose : pos = (vis L₁).length := by omega
        refine ⟨by rw [hdeq]; exact ⟨L', h1, h2, h3, h4⟩, ?_, ?_, ?_⟩
        · rw [hdeq, value_eq_vis h1, h5, hval, hvL, hpose, drop_len_add,
            take_append_le _ _ (Nat.le_refl (vis L₁).length),
            take_of_len_le (Nat.le_refl (vis L₁).length),
            vis_cons_of_visible hdel]
        · rw [hdeq, allText_eq h1, h6, htxt]
        · rw [hdeq, h7]
      · -- offset strictly inside `itm`: split first, then delete from the right part
        have hofflt : pos - (vis L₁).length < itm.content.length := by omega
        obtain ⟨L₁p, d2, hsplit, hshape, hcl2, hck2, hpd2, hC2, hL2, hV2, hK2,
          hgit2, hgnid2⟩ :=
          split_item_spec hC hL hV hK hoffpos hofflt
        have hdeq := delete_eq_found_split hlen hfp0 hoffpos hsplit
        have hC2a : ChainSeg d2.items d2.head
            ((L₁p ++ [leftSplitOf d itm (pos - (vis L₁).length)]) ++
              rightSplitOf d itm (pos - (vis L₁).length) :: L₂) none := by
          rw [List.append_assoc]
          exact hC2
        have hL2a : LeftSeg none
            ((L₁p ++ [leftSplitOf d itm (pos - (vis L₁).length)]) ++
              rightSplitOf d itm (pos - (vis L₁).length) :: L₂) := by
          rw [List.append_assoc]
          exact hL2
        have hV2a : visCov d2.items
            ((L₁p ++ [leftSplitOf d itm (pos - (vis L₁).length)]) ++
              rightSplitOf d itm (pos - (vis L₁).length) :: L₂) := by
          intro i itq hgi hvq
          rw [List.append_assoc]
          exact hV2 i itq hgi hvq
        have hfuel : L₂.length < d2.items.length + 1 := by
          have h1 := ChainSeg_length_le hC2
          simp only [List.length_append, List.length_cons] at h1
          omega
        obtain ⟨L', h1, h2, h3, h4, h5, h6, h7⟩ :=
          deleteLoop_spec L₂ (d2.items.length + 1) d2
            (L₁p ++ [leftSplitOf d itm (pos - (vis L₁).length)])
            (rightSplitOf d itm (pos - (vis L₁).length)) len
            hC2a hL2a hV2a hK2 hfuel
        have hdeq2 : d.delete pos len = deleteLoop (d2.items.length + 1) d2
            (rightSplitOf d itm (pos - (vis L₁).length)).id len := hdeq
        refine ⟨by rw [hdeq2]; exact ⟨L', h1, h2, h3, h4⟩, ?_, ?_, ?_⟩
        · have htake : (vis L₁ ++ (itm.content ++ vis L₂)).take pos =
              vis L₁ ++ itm.content.take (pos - (vis L₁).length) := by
            conv_lhs => rw [show pos = (vis L₁).length + (pos - (vis L₁).length)
              from by omega]
            rw [take_len_add, take_append_le _ _ (Nat.le_of_lt hofflt)]
          have hdrop : (vis L₁ ++ (itm.content ++ vis L₂)).drop (pos + len) =
              (itm.content.drop (pos - (vis L₁).length) ++ vis L₂).drop len := by
            conv_lhs => rw [show pos + len = (vis L₁).length +
              ((pos - (vis L₁).length) + len) from by omega]
            rw [drop_len_add, drop_add_split _ _ (Nat.le_of_lt hofflt)]
          rw [hdeq2, value_eq_vis h1, h5, hval, hvL, htake, hdrop]
          rw [vis_append,
            vis_cons_of_visible (show (leftSplitOf d itm
              (pos - (vis L₁).length)).is_deleted = false from rfl),
            vis_cons_of_visible (show (rightSplitOf d itm
              (pos - (vis L₁).length)).is_deleted = false from hdel),
            SameShape_vis hshape]
          dsimp only [leftSplitOf, rightSplitOf]
          simp [List.append_assoc]
        · rw [hdeq2, allText_eq h1, h6, htxt]
          simp only [List.append_assoc, List.cons_append, List.nil_append]
          rw [allTxt_append, allTxt_append, allTxt_cons, allTxt_cons, allTxt_cons,
            SameShape_allTxt hshape]
          dsimp only [leftSplitOf, rightSplitOf]
          rw [← List.append_assoc (itm.content.take (pos - (vis L₁).length))
            (itm.content.drop (pos - (vis L₁).length)), List.take_append_drop]
        · rw [hdeq2, h7, hcl2]
    · -- the position is at or past the visible end: nothing is deleted
      rw [fpList_past_end (by omega)] at hfp0
      have hdeq := delete_eq_none hlen hfp0
      rw [hdeq]
      refine ⟨⟨L, hC, hL, hV, hK⟩, ?_, rfl, rfl⟩
      rw [hval, take_of_len_le (by omega), drop_of_len_le (by omega),
        List.append_nil]

/-! ## Well-formedness of every reachable document -/

theorem insert_empty {d : Doc} {pos : Nat} : d.insert pos [] = d := rfl

theorem wf_new (c : Nat) : (Doc.new c).WF := by
  refine ⟨[], rfl, trivial, ?_, ?_⟩
  · intro i it hgi
    exact absurd hgi (by simp [Doc.new, Store.get?])
  · intro p hp
    exact absurd hp (by simp [Doc.new])

theorem wf_insert {d : Doc} (hWF : d.WF) (pos : Nat) (text : List Char) :
    (d.insert pos text).WF := by
  cases text with
  | nil => rw [insert_empty]; exact hWF
  | cons a l => exact (insert_spec hWF pos (by simp)).1

theorem wf_delete {d : Doc} (hWF : d.WF) (pos len : Nat) :
    (d.delete pos len).WF :=
  (delete_spec hWF pos len).1

theorem wf_applyOps {d : Doc} (hWF : d.WF) (ops : List Op) :
    (applyOps d ops).WF := by
  induction ops generalizing d with
  | nil => exact hWF
  | cons op ops ih =>
    cases op with
    | ins pos text => exact ih (wf_insert hWF pos text)
    | del pos len => exact ih (wf_delete hWF pos len)

theorem wf_reachable (c : Nat) (ops : List Op) : (applyOps (Doc.new c) ops).WF :=
  wf_applyOps (wf_new c) ops

/-- The right-to-left half of the claimed doubly-linked-list invariant: every
stored item whose `right` field names a neighbor has that neighbor's `left`
field pointing back at it. -/
def backLinkOk (s : Store) : Prop :=
  ∀ p ∈ s, ∀ q ∈ s, (Prod.snd p).right = some q.1 →
    (Prod.snd q).left = some p.1

instance (s : Store) : Decidable (backLinkOk s) :=
  inferInstanceAs (Decidable (∀ p ∈ s, ∀ q ∈ s, (Prod.snd p).right = some q.1 →
    (Prod.snd q).left = some p.1))

/-! ## The claims -/

/-- C1: REFUTED by the code — `Crdt::apply` is an empty stub (doc.rs line 189)
and `diff` returns nothing, so a replica that receives another replica's
operations through the sync API does not converge: after replica 1 inserts
a character and replica 2 applies everything replica 1 can offer, the two
values differ. -/
theorem c1_convergence_fails :
    ((Doc.new 2).apply ((applyOps (Doc.new 1) [Op.ins 0 ['a']]).diff
        (Doc.new 2).state_vector)).value ≠
      (applyOps (Doc.new 1) [Op.ins 0 ['a']]).value := by
  decide

/-- C2: REFUTED by the code — `Crdt::diff` is a stub returning the empty
vector (doc.rs lines 190-192). After two one-character inserts the local
state vector records max clock 1 for replica 1, which exceeds the empty
remote state vector's entry (absent means 0), and the stored item with id
(1, 1) has its clock in the required half-open range (0, 1] — yet diff
against the empty remote state vector returns nothing. -/
theorem c2_diff_returns_nothing :
    (applyOps (Doc.new 1) [Op.ins 0 ['a'], Op.ins 1 ['b']]).diff [] = [] ∧
      (1, 1) ∈ (applyOps (Doc.new 1)
        [Op.ins 0 ['a'], Op.ins 1 ['b']]).state_vector ∧
      ∃ p ∈ (applyOps (Doc.new 1) [Op.ins 0 ['a'], Op.ins 1 ['b']]).items,
        p.1.client = 1 ∧ 0 < p.1.clock ∧ p.1.clock ≤ 1 := by
  refine ⟨rfl, by decide, by decide⟩

/-- C3 (counterexample to the spec): an out-of-range position does not fail —
there is no error type anywhere in the code, `insert` past the end simply
appends and `delete` past the end is a silent no-op. -/
theorem c3_counterexample :
    ((Doc.new 1).insert 3 ['x']).value = ['x'] ∧
      (Doc.new 1).delete 3 1 = Doc.new 1 := by
  decide

/-- C3 (amended): `insert` and `delete` are total and never report an error;
with `pos` strictly beyond the visible length, `insert` appends `text` at the
very end and `delete` leaves the document completely unchanged. -/
theorem c3_out_of_range_never_fails {d : Doc} (hWF : d.WF) {pos : Nat}
    (hpos : d.value.length < pos) (len : Nat) {text : List Char}
    (ht : text ≠ []) :
    (d.insert pos text).value = d.value ++ text ∧ d.delete pos len = d := by
  constructor
  · rw [(insert_spec hWF pos ht).2.1, take_of_len_le (Nat.le_of_lt hpos),
      drop_of_len_le (Nat.le_of_lt hpos), List.append_nil]
  · obtain ⟨L, hC, hL, hV, hK⟩ := hWF
    have hval : d.value = vis L := value_eq_vis hC
    rcases Nat.eq_zero_or_pos len with h0 | h0
    · subst h0; exact delete_eq_zero
    · have hfp := find_pos_eq hC pos
      rw [hval] at hpos
      rw [fpList_past_end (by omega)] at hfp
      exact delete_eq_none (by omega) hfp

theorem c3_out_of_range_never_fails_witness :
    ((applyOps (Doc.new 1) [Op.ins 0 ['a', 'b']]).insert 5 ['c']).value =
        (applyOps (Doc.new 1) [Op.ins 0 ['a', 'b']]).value ++ ['c'] ∧
      (applyOps (Doc.new 1) [Op.ins 0 ['a', 'b']]).delete 5 2 =
        applyOps (Doc.new 1) [Op.ins 0 ['a', 'b']] :=
  c3_out_of_range_never_fails (wf_reachable 1 [Op.ins 0 ['a', 'b']]) (by decide)
    2 (by decide)

/-- C4: `apply` (the empty stub) is idempotent — applying the same update
twice leaves the document exactly as applying it once; in particular nothing
is ever duplicated on re-delivery. -/
theorem c4_apply_idempotent (d : Doc) (u : List Item) :
    (d.apply u).apply u = d.apply u := rfl

/-- C5: on a well-formed document, inserting non-empty `text` at a position
`pos` within the visible text splices it in — the new value is the first
`pos` characters, then `text`, then the rest — and inserting empty text
leaves the whole document state unchanged. -/
theorem c5_insert_splices {d : Doc} (hWF : d.WF) {pos : Nat}
    (hpos : pos ≤ d.value.length) {text : List Char} (ht : text ≠ []) :
    (d.insert pos text).value =
        d.value.take pos ++ text ++ d.value.drop pos ∧
      d.insert pos ([] : List Char) = d :=
  ⟨(insert_spec hWF pos ht).2.1, insert_empty⟩

theorem c5_insert_splices_witness :
    ((applyOps (Doc.new 1) [Op.ins 0 ['h', 'e', 'l', 'l', 'o']]).insert 5
        ['w', 'o', 'r', 'l', 'd']).value =
        (applyOps (Doc.new 1)
            [Op.ins 0 ['h', 'e', 'l', 'l', 'o']]).value.take 5 ++
          ['w', 'o', 'r', 'l', 'd'] ++
          (applyOps (Doc.new 1)
            [Op.ins 0 ['h', 'e', 'l', 'l', 'o']]).value.drop 5 ∧
      (applyOps (Doc.new 1) [Op.ins 0 ['h', 'e', 'l', 'l', 'o']]).insert 5
          ([] : List Char) =
        applyOps (Doc.new 1) [Op.ins 0 ['h', 'e', 'l', 'l', 'o']] :=
  c5_insert_splices (wf_reachable 1 [Op.ins 0 ['h', 'e', 'l', 'l', 'o']])
    (by decide) (by decide)

/-- C6: on a well-formed document, `delete pos len` removes exactly the
visible characters in `[pos, pos+len)` (silently truncated at the end of the
text), is a complete no-op for `len = 0`, and only marks items as deleted —
the concatenated content of all items in the chain, tombstoned or not, is
unchanged. -/
theorem c6_delete_removes_slice {d : Doc} (hWF : d.WF) {pos : Nat} (len : Nat)
    (hpos : pos ≤ d.value.length) :
    (d.delete pos len).value =
        d.value.take pos ++ d.value.drop (pos + len) ∧
      d.delete pos 0 = d ∧
      (d.delete pos len).allText = d.allText :=
  ⟨(delete_spec hWF pos len).2.1, delete_eq_zero, (delete_spec hWF pos len).2.2.1⟩

theorem c6_delete_removes_slice_witness :
    ((applyOps (Doc.new 1) [Op.ins 0 ['h', 'e', 'l', 'l', 'o']]).delete 1
          10).value =
        (applyOps (Doc.new 1)
            [Op.ins 0 ['h', 'e', 'l', 'l', 'o']]).value.take 1 ++
          (applyOps (Doc.new 1)
            [Op.ins 0 ['h', 'e', 'l', 'l', 'o']]).value.drop (1 + 10) ∧
      (applyOps (Doc.new 1) [Op.ins 0 ['h', 'e', 'l', 'l', 'o']]).delete 1 0 =
        applyOps (Doc.new 1) [Op.ins 0 ['h', 'e', 'l', 'l', 'o']] ∧
      ((applyOps (Doc.new 1) [Op.ins 0 ['h', 'e', 'l', 'l', 'o']]).delete 1
          10).allText =
        (applyOps (Doc.new 1) [Op.ins 0 ['h', 'e', 'l', 'l', 'o']]).allText :=
  c6_delete_removes_slice (wf_reachable 1 [Op.ins 0 ['h', 'e', 'l', 'l', 'o']])
    10 (by decide)

/-- C7: a split strictly inside an item keeps the original identifier on the
right-hand remainder (content from the offset on) and mints the fresh id
`(client_id, clock)` for the left-hand remainder; concretely,
insert(0,"hllo") then insert(1,"e") yields "hello" with three items and the
right split "llo" still stored under the original id (1,0). -/
theorem c7_split_keeps_id_on_right {d : Doc} {iid : ID} {it : Item}
    {off : Nat} (hget : d.items.get? iid = some it)
    (hne : (⟨d.client_id, d.clock⟩ : ID) ≠ iid)
    (hl1 : it.left ≠ some iid)
    (hl2 : it.left ≠ some ⟨d.client_id, d.clock⟩)
    (hoff : 0 < off) (hlt : off < it.content.length) :
    (∃ d', d.split_item iid off = (⟨d.client_id, d.clock⟩, d') ∧
      d'.items.get? iid =
        some ⟨it.id, some ⟨d.client_id, d.clock⟩, it.right,
          it.content.drop off, it.is_deleted⟩ ∧
      d'.items.get? ⟨d.client_id, d.clock⟩ =
        some ⟨⟨d.client_id, d.clock⟩, it.left, some iid, it.content.take off,
          false⟩) ∧
    ((applyOps (Doc.new 1)
          [Op.ins 0 ['h', 'l', 'l', 'o'], Op.ins 1 ['e']]).value =
        ['h', 'e', 'l', 'l', 'o'] ∧
      (applyOps (Doc.new 1)
          [Op.ins 0 ['h', 'l', 'l', 'o'], Op.ins 1 ['e']]).items.length = 3 ∧
      ((applyOps (Doc.new 1)
            [Op.ins 0 ['h', 'l', 'l', 'o'], Op.ins 1 ['e']]).items.get?
          ⟨1, 0⟩).map Item.content = some ['l', 'l', 'o']) := by
  constructor
  · cases hl : it.left with
    | none =>
      refine ⟨_, split_item_eq_none hget hl off, ?_, ?_⟩
      · rw [Store.get?_insert_ne _ _ (Ne.symm hne), Store.get?_insert_self]
      · rw [Store.get?_insert_self, hl]
    | some prev =>
      have hp1 : prev ≠ iid := by
        intro h; exact hl1 (by rw [hl, h])
      have hp2 : prev ≠ (⟨d.client_id, d.clock⟩ : ID) := by
        intro h; exact hl2 (by rw [hl, h])
      refine ⟨_, split_item_eq_some hget hl off, ?_, ?_⟩
      · rw [Store.get?_setRight_ne _ _ (Ne.symm hp1),
          Store.get?_insert_ne _ _ (Ne.symm hne), Store.get?_insert_self]
      · rw [Store.get?_setRight_ne _ _ (Ne.symm hp2),
          Store.get?_insert_self, hl]
  · refine ⟨by decide, by decide, by decide⟩

theorem c7_split_keeps_id_on_right_witness :
    (∃ d', (applyOps (Doc.new 1) [Op.ins 0 ['a', 'b']]).split_item ⟨1, 0⟩ 1 =
        (⟨1, 2⟩, d') ∧
      d'.items.get? ⟨1, 0⟩ =
        some ⟨⟨1, 0⟩, some ⟨1, 2⟩, none, ['b'], false⟩ ∧
      d'.items.get? ⟨1, 2⟩ =
        some ⟨⟨1, 2⟩, none, some ⟨1, 0⟩, ['a'], false⟩) ∧
    ((applyOps (Doc.new 1)
          [Op.ins 0 ['h', 'l', 'l', 'o'], Op.ins 1 ['e']]).value =
        ['h', 'e', 'l', 'l', 'o'] ∧
      (applyOps (Doc.new 1)
          [Op.ins 0 ['h', 'l', 'l', 'o'], Op.ins 1 ['e']]).items.length = 3 ∧
      ((applyOps (Doc.new 1)
            [Op.ins 0 ['h', 'l', 'l', 'o'], Op.ins 1 ['e']]).items.get?
          ⟨1, 0⟩).map Item.content = some ['l', 'l', 'o']) :=
  @c7_split_keeps_id_on_right (applyOps (Doc.new 1) [Op.ins 0 ['a', 'b']])
    ⟨1, 0⟩ ⟨⟨1, 0⟩, none, none, ['a', 'b'], false⟩ 1 rfl (by decide)
    (by decide) (by decide) (by decide) (by decide)

/-- C8 (counterexample to the spec): the back-pointer half of the
doubly-linked-list invariant fails on a reachable document — after
insert "ab", delete 1 char, insert "c" at the front, a tombstone still
points right at an item whose left pointer names someone else. -/
theorem c8_counterexample :
    ¬ backLinkOk (applyOps (Doc.new 1)
        [Op.ins 0 ['a', 'b'], Op.del 0 1, Op.ins 0 ['c']]).items := by
  decide

/-- C8 (amended): every document reachable from a fresh one by local edits is
well formed in the weaker sense that actually holds: the items reachable from
`head` form a chain whose left pointers link back correctly and which covers
every non-tombstoned item of the store; orphaned tombstones (as in the
counterexample) are the only defect of the full invariant. -/
theorem c8_reachable_well_formed (c : Nat) (ops : List Op) :
    (applyOps (Doc.new c) ops).WF :=
  wf_applyOps (wf_new c) ops

/-- C9: `find_pos` on a well-formed document returns
(last-visible-item-or-none, none, 0) whenever `pos` is at or past the total
visible length (in particular on an empty document), and on an all-tombstoned
document it returns (none, none, 0) for every `pos`. -/
theorem c9_find_pos_edges {d : Doc} (hWF : d.WF) (pos : Nat) :
    (d.value.length ≤ pos → d.find_pos pos = (d.lastVisible, none, 0)) ∧
      ((∀ p ∈ d.items, p.2.is_deleted = true) →
        d.find_pos pos = (none, none, 0)) := by
  obtain ⟨L, hC, hL, hV, hK⟩ := hWF
  have hval : d.value = vis L := value_eq_vis hC
  have hfp := find_pos_eq hC pos
  constructor
  · intro hlen
    rw [hval] at hlen
    rw [hfp, fpList_past_end (by omega), lastVisible_eq hC]
  · intro htomb
    have hall : ∀ it ∈ L, it.is_deleted = true := by
      intro it hit
      exact htomb (it.id, it) (Store.get?_mem (ChainSeg_get? hC it hit))
    have hlen : (vis L).length ≤ pos := by
      rw [vis_all_deleted hall]
      exact Nat.zero_le pos
    rw [hfp, fpList_past_end (by omega), lastVisFrom_all_deleted hall]

theorem c9_find_pos_edges_witness :
    ((applyOps (Doc.new 1) [Op.ins 0 ['a'], Op.del 0 1]).value.length ≤ 3 →
      (applyOps (Doc.new 1) [Op.ins 0 ['a'], Op.del 0 1]).find_pos 3 =
        ((applyOps (Doc.new 1) [Op.ins 0 ['a'], Op.del 0 1]).lastVisible,
          none, 0)) ∧
      ((∀ p ∈ (applyOps (Doc.new 1) [Op.ins 0 ['a'], Op.del 0 1]).items,
          p.2.is_deleted = true) →
        (applyOps (Doc.new 1) [Op.ins 0 ['a'], Op.del 0 1]).find_pos 3 =
          (none, none, 0)) :=
  c9_find_pos_edges (wf_reachable 1 [Op.ins 0 ['a'], Op.del 0 1]) 3

/-- C10: inserting non-empty text at a position strictly beyond the visible
length does not fail — the text is appended at the very end, and the new item
is linked with the last visible item on its left and nothing on its right. -/
theorem c10_insert_past_end_appends {d : Doc} (hWF : d.WF) {pos : Nat}
    (hpos : d.value.length < pos) {text : List Char} (ht : text ≠ []) :
    (d.insert pos text).value = d.value ++ text ∧
      (d.insert pos text).items.get? ⟨d.client_id, d.clock⟩ =
        some ⟨⟨d.client_id, d.clock⟩, d.lastVisible, none, text, false⟩ := by
  obtain ⟨h1, h2, h3, h4⟩ := insert_spec hWF pos ht
  refine ⟨?_, h4 (Nat.le_of_lt hpos)⟩
  rw [h2, take_of_len_le (Nat.le_of_lt hpos), drop_of_len_le (Nat.le_of_lt hpos),
    List.append_nil]

theorem c10_insert_past_end_appends_witness :
    ((applyOps (Doc.new 1) [Op.ins 0 ['a', 'b']]).insert 7 ['z']).value =
        (applyOps (Doc.new 1) [Op.ins 0 ['a', 'b']]).value ++ ['z'] ∧
      ((applyOps (Doc.new 1) [Op.ins 0 ['a', 'b']]).insert 7
          ['z']).items.get? ⟨1, 2⟩ =
        some ⟨⟨1, 2⟩, some ⟨1, 0⟩, none, ['z'], false⟩ :=
  c10_insert_past_end_appends (wf_reachable 1 [Op.ins 0 ['a', 'b']])
    (by decide) (by decide)

end TinyCrdt
